import Mathlib

/-!
Verification of the multilinear sumcheck protocol
(`src/zkp/src/sumcheck/mod.rs`, orchestration layer `MLSumcheck` together
with its `prover`/`verifier` round engines and the `SumcheckKit` /
`ProofWrapper` wrappers).

The orchestration layer (`MLSumcheck::prove`, `MLSumcheck::verify`,
`MLSumcheck::extract_sum`, `SumcheckKit::extract`) is translated directly
from `mod.rs`.  The `prover` / `verifier` submodules and the external
`algebra` collaborators (field, multilinear extensions, transcript) are
not part of the provided sources; those definitions are modelled from the
specification, as indicated by their doc comments.

Conventions of the embedding:
* Rust's `&mut Transcript` is threaded explicitly: every operation that
  mutates the transcript returns the new transcript.
* A Rust panic (`expect`/`unwrap`/out-of-bounds index) is modelled by an
  `Option` result being `none`.
* The Fiat-Shamir sponge is modelled by an arbitrary deterministic
  function `chal` from the transcript's operation history to a field
  element; two "identically seeded" transcripts are two transcripts with
  the same `chal` function and the same initial operation list.
-/

set_option linter.unusedSectionVars false

namespace Primus

/-- Modelled from the spec: a transcript message. The byte tags
(`b"polynomial info"`, `b"sumcheck msg"`) used by `append_message` in the
source are reflected by the two distinct constructors, so that the two
kinds of messages are absorbed distinguishably, as the tags ensure. -/
inductive TMsg (F : Type) where
  | info (num_variables max_multiplicands : Nat)
  | pmsg (evaluations : List F)
deriving DecidableEq

/-- Modelled from the spec: one operation performed on the transcript,
either absorbing a message or squeezing a challenge. -/
inductive TOp (F : Type) where
  | absorb (m : TMsg F)
  | squeeze
deriving DecidableEq

/-- Modelled from the spec: the transcript (Fiat-Shamir hash sponge) is an
external collaborator; its observable state is the ordered list of
operations performed on it. -/
structure Transcript (F : Type) where
  ops : List (TOp F)
deriving DecidableEq

/-- The transcript absorbs a message (`Transcript::append_message`). -/
def Transcript.append_message {F : Type} (t : Transcript F) (m : TMsg F) : Transcript F :=
  ⟨t.ops ++ [TOp.absorb m]⟩

/-- The transcript records that a challenge was squeezed. -/
def Transcript.push_squeeze {F : Type} (t : Transcript F) : Transcript F :=
  ⟨t.ops ++ [TOp.squeeze]⟩

/-- Shape metadata of a polynomial: number of variables and maximum number
of multiplicands over all products (`PolynomialInfo`). -/
structure PolynomialInfo where
  num_variables : Nat
  max_multiplicands : Nat
deriving DecidableEq

/-- Modelled from the spec: `ListOfProductsOfPolynomials` - a sum of
coefficient-weighted products of multilinear extensions.  Each multilinear
extension over `n` variables is stored as its `2 ^ n` evaluations (a
`List F`); products reference extensions by index into the shared
flattened pool. -/
structure ListOfProductsOfPolynomials (F : Type) where
  num_variables : Nat
  max_multiplicands : Nat
  products : List (F × List Nat)
  flattened_ml_extensions : List (List F)
deriving DecidableEq

/-- `ListOfProductsOfPolynomials::info`. -/
def ListOfProductsOfPolynomials.info {F : Type}
    (p : ListOfProductsOfPolynomials F) : PolynomialInfo :=
  ⟨p.num_variables, p.max_multiplicands⟩

/-- One round's prover message: the univariate round polynomial
represented by its evaluations at `0, 1, ..., max_multiplicands`. -/
structure ProverMsg (F : Type) where
  evaluations : List F
deriving DecidableEq

/-- Proof generated by the prover (`type Proof<F> = Vec<ProverMsg<F>>`). -/
abbrev Proof (F : Type) := List (ProverMsg F)

/-- Modelled from the spec: the prover's mutable working state - the
polynomial with an increasing prefix of variables fixed to challenge
values, the round index, and the accumulated challenges. -/
structure ProverState (F : Type) where
  randomness : List F
  products : List (F × List Nat)
  flattened_ml_extensions : List (List F)
  num_vars : Nat
  max_multiplicands : Nat
  round : Nat
deriving DecidableEq

/-- Modelled from the spec: the verifier's transient state across rounds:
shape info, the received round messages and the accumulated challenges
(the boundary-consistency checks are replayed at finalization, because
`claimed_sum` is handed to the verifier engine only in
`check_and_generate_subclaim`; see `MLSumcheck::verify`). -/
structure VerifierState (F : Type) where
  num_variables : Nat
  max_multiplicands : Nat
  round : Nat
  polynomials_received : List (List F)
  randomness : List F
deriving DecidableEq

/-- Output contract of verification: point and expected evaluation. -/
structure SubClaim (F : Type) where
  point : List F
  expected_evaluation : F
deriving DecidableEq

/-- Modelled from the spec: the error kinds reported by `verify`
(`crate::error::Error`): `MalformedProof` for shape mismatches and
`VerificationFailed` for a failing boundary-consistency check. -/
inductive Error where
  | MalformedProof
  | VerificationFailed
deriving DecidableEq

/-- Wrapper for the prover claiming the sumcheck protocol
(`SumcheckKit`). -/
structure SumcheckKit (F : Type) where
  claimed_sum : F
  info : PolynomialInfo
  u : List F
  proof : Proof F
  randomness : List F

/-- Wrapper for the verifier checking the sumcheck protocol
(`ProofWrapper`). -/
structure ProofWrapper (F : Type) where
  claimed_sum : F
  info : PolynomialInfo
  proof : Proof F

/-- `SumcheckKit::extract`: build the verifier-facing wrapper from the
kit's `claimed_sum`, `info` and `proof` fields (the proof is cloned; `u`
and `randomness` do not appear in the result type at all). -/
def SumcheckKit.extract {F : Type} (k : SumcheckKit F) : ProofWrapper F :=
  { claimed_sum := k.claimed_sum, info := k.info, proof := k.proof }

section Protocol

variable {F : Type} [Field F] [DecidableEq F]

/-- Modelled from the spec: fix the first variable of a multilinear
extension (stored as its evaluation table, first variable = lowest index
bit) to the value `r`, halving the table:
`new[b] = (1 - r) * old[2b] + r * old[2b+1]`. -/
def fix_variable (r : F) : List F → List F
  | a :: b :: rest => ((1 - r) * a + r * b) :: fix_variable r rest
  | _ => []

/-- Modelled from the spec: evaluate a multilinear extension at a field
point by fixing its variables one by one and reading the remaining single
entry (`DenseMultilinearExtension::evaluate`). -/
def mle_evaluate (tab : List F) (point : List F) : F :=
  (point.foldl (fun tb x => fix_variable x tb) tab).getD 0 0

/-- The boolean point of `{0,1}^n` encoded by the `n` low bits of `b`
(first variable = lowest bit), as a list of field elements. -/
def boolPoint (F : Type) [Field F] : Nat → Nat → List F
  | 0, _ => []
  | n + 1, b => ((b % 2 : Nat) : F) :: boolPoint F n (b / 2)

/-- Value, at hypercube index `b` of the current evaluation tables, of the
sum of coefficient-weighted products of the pooled extensions. -/
def products_sum (pool : List (List F)) (products : List (F × List Nat)) (b : Nat) : F :=
  (products.map (fun pr => pr.1 * (pr.2.map (fun j => (pool.getD j []).getD b 0)).prod)).sum

/-- Sum of the product polynomial over the whole remaining hypercube
(`2 ^ m` assignments) of the current evaluation tables. -/
def total_sum (pool : List (List F)) (products : List (F × List Nat)) (m : Nat) : F :=
  ∑ b ∈ Finset.range (2 ^ m), products_sum pool products b

/-- Modelled from the spec: value of the univariate round polynomial
`g_i` at `x`: substitute the current first variable by `x` in every
pooled extension and sum the products over the `2 ^ (m-1)` boolean
assignments of the remaining variables (`m` = variables remaining before
this round). -/
def round_poly_eval (pool : List (List F)) (products : List (F × List Nat))
    (m : Nat) (x : F) : F :=
  ∑ b ∈ Finset.range (2 ^ (m - 1)), products_sum (pool.map (fix_variable x)) products b

/-- Pool of evaluation tables after fixing the first variables to the
successive challenges `rs`. -/
def pool_after (pool : List (List F)) (rs : List F) : List (List F) :=
  rs.foldl (fun pl r => pl.map (fix_variable r)) pool

/-- Evaluation of the full product polynomial at a field point. -/
def ListOfProductsOfPolynomials.evaluate (p : ListOfProductsOfPolynomials F)
    (point : List F) : F :=
  (p.products.map (fun pr =>
    pr.1 * (pr.2.map (fun j =>
      mle_evaluate (p.flattened_ml_extensions.getD j []) point)).prod)).sum

/-- True sum of the product polynomial over the boolean hypercube
`{0,1} ^ num_variables`. -/
def hypercubeSum (p : ListOfProductsOfPolynomials F) : F :=
  ∑ b ∈ Finset.range (2 ^ p.num_variables),
    p.evaluate (boolPoint F p.num_variables b)

/-- Modelled from the spec: evaluate, at `x`, the unique polynomial of
degree `< evals.length` whose value at the node `j` is `evals[j]`
(Lagrange interpolation from the sampled evaluations, then evaluation at
`x`). -/
def interpolate_uni_poly (evals : List F) (x : F) : F :=
  ∑ j ∈ Finset.range evals.length,
    evals.getD j 0 *
      ∏ k ∈ (Finset.range evals.length).erase j,
        ((j : F) - (k : F))⁻¹ * (x - (k : F))

/-- Modelled from the spec: squeeze one pseudorandom field element from
the transcript (`IPForMLSumcheck::sample_round`); `chal` is the seeded
sponge's deterministic output on the current operation history. -/
def sample_round (chal : List (TOp F) → F) (t : Transcript F) : F × Transcript F :=
  (chal t.ops, t.push_squeeze)

/-- Modelled from the spec: `IPForMLSumcheck::prover_init` - working copy
of the polynomial with an empty challenge sequence. -/
def prover_init (p : ListOfProductsOfPolynomials F) : ProverState F :=
  { randomness := []
    products := p.products
    flattened_ml_extensions := p.flattened_ml_extensions
    num_vars := p.num_variables
    max_multiplicands := p.max_multiplicands
    round := 0 }

/-- Modelled from the spec: first half of `IPForMLSumcheck::prove_round`.
On receiving the previous round's challenge, fix the current first
variable to it in every pooled extension and append it to `randomness`
(nothing happens in round 1, where there is no previous challenge). -/
def receive_challenge (s : ProverState F) (v : Option F) : ProverState F :=
  match v with
  | none => s
  | some r =>
    { s with
      flattened_ml_extensions := s.flattened_ml_extensions.map (fix_variable r)
      randomness := s.randomness ++ [r] }

/-- Modelled from the spec: second half of `IPForMLSumcheck::prove_round`:
evaluate the current round polynomial at `0, 1, ..., max_multiplicands`
and emit these evaluations as the round's message (the number of
variables still free is `num_vars` minus the number fixed so far). -/
def prover_message (s : ProverState F) : ProverMsg F :=
  ⟨(List.range (s.max_multiplicands + 1)).map (fun t =>
    round_poly_eval s.flattened_ml_extensions s.products
      (s.num_vars - s.randomness.length) ((t : Nat) : F))⟩

/-- Modelled from the spec: `IPForMLSumcheck::prove_round`. -/
def prove_round (s : ProverState F) (v : Option F) : ProverState F × ProverMsg F :=
  ({ receive_challenge s v with round := (receive_challenge s v).round + 1 },
   prover_message (receive_challenge s v))

/-- The round loop of `MLSumcheck::prove` (`for _ in 0..num_variables`),
with the loop's local variables (`prover_state`, `verifier_msg`,
`prover_msgs`, the transcript) threaded explicitly. -/
def prove_loop (chal : List (TOp F) → F) :
    Nat → ProverState F → Option F → List (ProverMsg F) → Transcript F →
      ProverState F × Option F × List (ProverMsg F) × Transcript F
  | 0, s, v, msgs, t => (s, v, msgs, t)
  | k + 1, s, v, msgs, t =>
    let pm := prove_round s v
    let t1 := t.append_message (TMsg.pmsg pm.2.evaluations)
    let sq := sample_round chal t1
    prove_loop chal k pm.1 (some sq.1) (msgs ++ [pm.2]) sq.2

/-- `MLSumcheck::prove`: absorb the polynomial's shape metadata, run the
round loop (each round absorbs the prover message and then samples the
next challenge), then push the final sampled challenge into the prover's
`randomness` (`verifier_msg.unwrap()` - the `unwrap` panics, i.e. the
result is `none`, when the loop never ran).  The source's `Result` return
has no reachable `Err` branch, so the success value is returned
directly. -/
def prove (chal : List (TOp F) → F) (trans : Transcript F)
    (polynomial : ListOfProductsOfPolynomials F) :
    Option (Proof F × ProverState F × Transcript F) :=
  let t0 := trans.append_message
    (TMsg.info polynomial.num_variables polynomial.max_multiplicands)
  let r := prove_loop chal polynomial.num_variables (prover_init polynomial) none [] t0
  match r.2.1 with
  | none => none
  | some c =>
    some (r.2.2.1, { r.1 with randomness := r.1.randomness ++ [c] }, r.2.2.2)

/-- `MLSumcheck::extract_sum`: the two boundary evaluations of the first
round message, `proof[0].evaluations[0] + proof[0].evaluations[1]`
(out-of-range indices are modelled by the default `0`). -/
def extract_sum (proof : Proof F) : F :=
  ((proof.getD 0 ⟨[]⟩).evaluations).getD 0 0 + ((proof.getD 0 ⟨[]⟩).evaluations).getD 1 0

/-- Modelled from the spec: `IPForMLSumcheck::verifier_init` - shape info
with no messages or challenges received yet. -/
def verifier_init (info : PolynomialInfo) : VerifierState F :=
  { num_variables := info.num_variables
    max_multiplicands := info.max_multiplicands
    round := 0
    polynomials_received := []
    randomness := [] }

/-- Modelled from the spec: `IPForMLSumcheck::verify_round` - record the
received round message, sample this round's challenge from the transcript
(which has already absorbed the message at the call site) and record it.
The boundary-consistency checks are replayed in
`check_and_generate_subclaim`, the only place that receives
`claimed_sum`. -/
def verify_round (msg : ProverMsg F) (vs : VerifierState F) (chal : List (TOp F) → F)
    (t : Transcript F) : VerifierState F × Transcript F :=
  let sq := sample_round chal t
  ({ vs with
      polynomials_received := vs.polynomials_received ++ [msg.evaluations]
      randomness := vs.randomness ++ [sq.1]
      round := vs.round + 1 },
   sq.2)

/-- The round loop of `MLSumcheck::verify` (`for i in 0..num_variables`):
`proof.get(i).expect("proof is incomplete")` walks the proof in order and
panics (modelled by `none`) when the message for the current round is
missing; otherwise the message is absorbed and `verify_round` is run. -/
def verify_loop (chal : List (TOp F) → F) :
    Nat → List (ProverMsg F) → VerifierState F → Transcript F →
      Option (VerifierState F × Transcript F)
  | 0, _, vs, t => some (vs, t)
  | k + 1, rest, vs, t =>
    match rest with
    | [] => none
    | msg :: rest2 =>
      let t1 := t.append_message (TMsg.pmsg msg.evaluations)
      let vr := verify_round msg vs chal t1
      verify_loop chal k rest2 vr.1 vr.2

/-- Modelled from the spec: replay of the per-round boundary-consistency
checks at finalization.  For each round, in order: the message must carry
exactly `max_multiplicands + 1` evaluations (else `MalformedProof`); its
two boundary evaluations must sum to the running expected value (else
`VerificationFailed`, aborting the remaining checks); the new expected
value is the interpolated round polynomial at that round's challenge. -/
def check_rounds (d : Nat) : List (List F) → List F → F → Except Error F
  | [], [], expected => Except.ok expected
  | evals :: ms, r :: rs, expected =>
    if evals.length ≠ d + 1 then Except.error Error.MalformedProof
    else if evals.getD 0 0 + evals.getD 1 0 ≠ expected then
      Except.error Error.VerificationFailed
    else check_rounds d ms rs (interpolate_uni_poly evals r)
  | _, _, _ => Except.error Error.MalformedProof

/-- Modelled from the spec: `IPForMLSumcheck::check_and_generate_subclaim`.
Fails with `MalformedProof` when fewer rounds than `num_variables` were
received; otherwise replays the boundary checks from `claimed_sum` and, if
they pass, returns the subclaim whose point is the accumulated challenge
sequence and whose expected evaluation is the final running value. -/
def check_and_generate_subclaim (vs : VerifierState F) (claimed_sum : F) :
    Except Error (SubClaim F) :=
  if vs.polynomials_received.length = vs.num_variables ∧
      vs.randomness.length = vs.num_variables then
    match check_rounds vs.max_multiplicands vs.polynomials_received vs.randomness
        claimed_sum with
    | Except.error e => Except.error e
    | Except.ok expected =>
      Except.ok { point := vs.randomness, expected_evaluation := expected }
  else Except.error Error.MalformedProof

/-- `MLSumcheck::verify`: absorb the shape metadata, run the round loop
(each round absorbs the received message before its challenge is
sampled; a missing message panics, modelled by `none`), then run
`check_and_generate_subclaim` with the externally supplied
`claimed_sum`. -/
def verify (chal : List (TOp F) → F) (trans : Transcript F)
    (polynomial_info : PolynomialInfo) (claimed_sum : F) (proof : Proof F) :
    Option (Except Error (SubClaim F) × Transcript F) :=
  let t0 := trans.append_message
    (TMsg.info polynomial_info.num_variables polynomial_info.max_multiplicands)
  match verify_loop chal polynomial_info.num_variables proof
      (verifier_init polynomial_info) t0 with
  | none => none
  | some vt => some (check_and_generate_subclaim vt.1 claimed_sum, vt.2)

/-- Validity of a `ListOfProductsOfPolynomials` (the spec's data-model
invariants): at least one variable, univariate round degree at least one,
every pooled extension stores `2 ^ num_variables` evaluations, every
product has at most `max_multiplicands` multiplicands, all referencing
pooled extensions. -/
def Wf (p : ListOfProductsOfPolynomials F) : Prop :=
  1 ≤ p.num_variables ∧ 1 ≤ p.max_multiplicands ∧
    (∀ tab ∈ p.flattened_ml_extensions, tab.length = 2 ^ p.num_variables) ∧
    (∀ pr ∈ p.products, pr.2.length ≤ p.max_multiplicands ∧
      ∀ j ∈ pr.2, j < p.flattened_ml_extensions.length)

/-- The interpolation nodes `0, 1, ..., d` are pairwise distinct in `F`
(automatic when the field characteristic exceeds `d`). -/
def NodesInj (F : Type) [Field F] (d : Nat) : Prop :=
  ∀ j k : Fin (d + 1), ((j : Nat) : F) = ((k : Nat) : F) → j = k

/-- Transcript operations contributed by a list of absorbed-and-sampled
round messages: each message's absorption immediately followed by the
squeeze of the corresponding challenge. -/
def msgsTrace (ms : List (ProverMsg F)) : List (TOp F) :=
  (ms.map (fun m => [TOp.absorb (TMsg.pmsg m.evaluations), TOp.squeeze])).flatten

/-- Number of challenges squeezed in an operation history. -/
def squeezeCount (ops : List (TOp F)) : Nat :=
  ops.countP (fun o => decide (o = TOp.squeeze))

/-- Challenges fully received by the prover state: the recorded
`randomness` plus the still-pending verifier message. -/
def prRand (s : ProverState F) (v : Option F) : List F :=
  s.randomness ++ v.toList

/-! Basic lemmas about the evaluation-table operations. -/

lemma fix_variable_nil (r : F) : fix_variable r ([] : List F) = [] := rfl

lemma fix_variable_length (r : F) :
    ∀ tab : List F, (fix_variable r tab).length = tab.length / 2
  | [] => by simp [fix_variable]
  | [_] => by simp [fix_variable]
  | _ :: _ :: rest => by
    simp only [fix_variable, List.length_cons, fix_variable_length r rest]
    omega

lemma fix_variable_getD (r : F) :
    ∀ (b : Nat) (tab : List F), 2 * b + 1 < tab.length →
      (fix_variable r tab).getD b 0 =
        (1 - r) * tab.getD (2 * b) 0 + r * tab.getD (2 * b + 1) 0
  | _, [], h => by simp at h
  | b, [a], h => by
    simp only [List.length_cons, List.length_nil] at h
    omega
  | 0, a :: c :: rest, _ => by simp [fix_variable]
  | b + 1, a :: c :: rest, h => by
    have h' : 2 * b + 1 < rest.length := by
      simp only [List.length_cons] at h; omega
    have hb2 : 2 * (b + 1) = 2 * b + 1 + 1 := by omega
    simp only [fix_variable, hb2, List.getD_cons_succ]
    exact fix_variable_getD r b rest h'

lemma sum_range_double {M : Type} [AddCommMonoid M] (f : Nat → M) :
    ∀ L : Nat, ∑ b ∈ Finset.range (2 * L), f b
      = ∑ b ∈ Finset.range L, (f (2 * b) + f (2 * b + 1))
  | 0 => by simp
  | L + 1 => by
    have h2 : 2 * (L + 1) = 2 * L + 1 + 1 := by omega
    rw [h2, Finset.sum_range_succ, Finset.sum_range_succ, sum_range_double f L,
      Finset.sum_range_succ, add_assoc]

lemma list_map_sum_add {A : Type} (l : List A) (f g : A → F) :
    (l.map f).sum + (l.map g).sum = (l.map (fun a => f a + g a)).sum := by
  induction l with
  | nil => simp
  | cons a rest ih =>
    simp only [List.map_cons, List.sum_cons, ← ih]
    ring

lemma sum_list_map_swap {A : Type} (l : List A) (s : Finset Nat) (f : Nat → A → F) :
    ∑ b ∈ s, (l.map (f b)).sum = (l.map (fun a => ∑ b ∈ s, f b a)).sum := by
  induction l with
  | nil => simp
  | cons a rest ih =>
    simp only [List.map_cons, List.sum_cons, Finset.sum_add_distrib, ih]

lemma getD_map_nil (fn : List F → List F) (h0 : fn [] = []) :
    ∀ (pool : List (List F)) (j : Nat), (pool.map fn).getD j [] = fn (pool.getD j [])
  | [], j => by simp [h0]
  | a :: rest, 0 => by simp
  | a :: rest, j + 1 => by simpa using getD_map_nil fn h0 rest j

lemma pool_after_getD (rs : List F) :
    ∀ (pool : List (List F)) (j : Nat),
      (pool_after pool rs).getD j []
        = rs.foldl (fun tb x => fix_variable x tb) (pool.getD j []) := by
  induction rs with
  | nil => intro pool j; rfl
  | cons r rest ih =>
    intro pool j
    show (pool_after (pool.map (fix_variable r)) rest).getD j [] = _
    rw [ih (pool.map (fix_variable r)) j, getD_map_nil _ rfl]
    rfl

lemma mle_evaluate_boolPoint :
    ∀ (n : Nat) (tab : List F) (b : Nat), tab.length = 2 ^ n → b < 2 ^ n →
      mle_evaluate tab (boolPoint F n b) = tab.getD b 0
  | 0, tab, b, _, hb => by
    interval_cases b
    rfl
  | n + 1, tab, b, hlen, hb => by
    have hhalf : (fix_variable (((b % 2 : Nat) : F)) tab).length = 2 ^ n := by
      rw [fix_variable_length, hlen, pow_succ]
      omega
    have hb2 : b / 2 < 2 ^ n := by
      have : 2 ^ (n + 1) = 2 ^ n * 2 := pow_succ 2 n
      omega
    have hstep : mle_evaluate tab (boolPoint F (n + 1) b)
        = mle_evaluate (fix_variable (((b % 2 : Nat) : F)) tab) (boolPoint F n (b / 2)) := rfl
    rw [hstep, mle_evaluate_boolPoint n _ (b / 2) hhalf hb2]
    have hidx : 2 * (b / 2) + 1 < tab.length := by
      rw [hlen]
      have : 2 ^ (n + 1) = 2 ^ n * 2 := pow_succ 2 n
      omega
    rw [fix_variable_getD _ _ _ hidx]
    rcases Nat.mod_two_eq_zero_or_one b with h | h
    · have hbe : 2 * (b / 2) = b := by omega
      rw [h, hbe]
      push_cast
      ring
    · have hbe : 2 * (b / 2) + 1 = b := by omega
      rw [h, hbe]
      push_cast
      ring

lemma getD_fix_pool (x : F) (pool : List (List F)) (m b j : Nat)
    (hm : 1 ≤ m) (hlen : ∀ tab ∈ pool, tab.length = 2 ^ m) (hb : b < 2 ^ (m - 1)) :
    ((pool.map (fix_variable x)).getD j []).getD b 0
      = (1 - x) * (pool.getD j []).getD (2 * b) 0
        + x * (pool.getD j []).getD (2 * b + 1) 0 := by
  rw [getD_map_nil _ rfl]
  rcases lt_or_ge j pool.length with hj | hj
  · have hmem : pool.getD j [] ∈ pool := by
      rw [List.getD_eq_getElem _ _ hj]
      exact List.getElem_mem hj
    have hidx : 2 * b + 1 < (pool.getD j []).length := by
      rw [hlen _ hmem]
      have h2 : 2 ^ m = 2 ^ (m - 1) * 2 := by
        conv_lhs => rw [← Nat.sub_add_cancel hm]
        rw [pow_succ]
      omega
    exact fix_variable_getD x b _ hidx
  · rw [List.getD_eq_default _ _ hj]
    simp [fix_variable]

lemma round_boundary (pool : List (List F)) (products : List (F × List Nat)) (m : Nat)
    (hm : 1 ≤ m) (hlen : ∀ tab ∈ pool, tab.length = 2 ^ m) :
    round_poly_eval pool products m 0 + round_poly_eval pool products m 1
      = total_sum pool products m := by
  unfold total_sum round_poly_eval
  have h2 : 2 ^ m = 2 * 2 ^ (m - 1) := by
    conv_lhs => rw [← Nat.sub_add_cancel hm]
    rw [pow_succ]
    ring
  rw [h2, sum_range_double, ← Finset.sum_add_distrib]
  apply Finset.sum_congr rfl
  intro b hb
  have hb' : b < 2 ^ (m - 1) := Finset.mem_range.mp hb
  unfold products_sum
  rw [list_map_sum_add, list_map_sum_add]
  apply congrArg List.sum
  apply List.map_congr_left
  intro pr _
  have e0 : (pr.2.map (fun j => ((pool.map (fix_variable (0 : F))).getD j []).getD b 0)).prod
      = (pr.2.map (fun j => (pool.getD j []).getD (2 * b) 0)).prod := by
    apply congrArg List.prod
    apply List.map_congr_left
    intro j _
    rw [getD_fix_pool 0 pool m b j hm hlen hb']
    ring
  have e1 : (pr.2.map (fun j => ((pool.map (fix_variable (1 : F))).getD j []).getD b 0)).prod
      = (pr.2.map (fun j => (pool.getD j []).getD (2 * b + 1) 0)).prod := by
    apply congrArg List.prod
    apply List.map_congr_left
    intro j _
    rw [getD_fix_pool 1 pool m b j hm hlen hb']
    ring
  rw [e0, e1]

lemma total_sum_fix (x : F) (pool : List (List F)) (products : List (F × List Nat))
    (m : Nat) :
    total_sum (pool.map (fix_variable x)) products (m - 1)
      = round_poly_eval pool products m x := rfl

/-- The round polynomial `g_i` as an abstract univariate polynomial: for
each boolean assignment of the remaining variables, the product of the
(affine in `X`) slices of the pooled extensions. -/
noncomputable def round_polynomial (pool : List (List F))
    (products : List (F × List Nat)) (m : Nat) : Polynomial F :=
  ∑ b ∈ Finset.range (2 ^ (m - 1)),
    (products.map (fun pr => Polynomial.C pr.1 *
      (pr.2.map (fun j =>
        Polynomial.C ((pool.getD j []).getD (2 * b) 0) +
          Polynomial.C ((pool.getD j []).getD (2 * b + 1) 0
            - (pool.getD j []).getD (2 * b) 0) * Polynomial.X)).prod)).sum

lemma round_polynomial_eval (pool : List (List F)) (products : List (F × List Nat))
    (m : Nat) (hm : 1 ≤ m) (hlen : ∀ tab ∈ pool, tab.length = 2 ^ m) (x : F) :
    (round_polynomial pool products m).eval x = round_poly_eval pool products m x := by
  unfold round_polynomial round_poly_eval
  rw [Polynomial.eval_finset_sum]
  apply Finset.sum_congr rfl
  intro b hb
  have hb' : b < 2 ^ (m - 1) := Finset.mem_range.mp hb
  have hsum : ∀ l : List (Polynomial F),
      (l.sum).eval x = (l.map (fun q => q.eval x)).sum := by
    intro l
    simpa using map_list_sum (Polynomial.evalRingHom x) l
  rw [hsum, List.map_map]
  unfold products_sum
  apply congrArg List.sum
  apply List.map_congr_left
  intro pr _
  have hprod : ∀ l : List (Polynomial F),
      (l.prod).eval x = (l.map (fun q => q.eval x)).prod := by
    intro l
    simpa using map_list_prod (Polynomial.evalRingHom x) l
  simp only [Function.comp_apply, Polynomial.eval_mul, Polynomial.eval_C, hprod,
    List.map_map]
  congr 1
  apply congrArg List.prod
  apply List.map_congr_left
  intro j _
  simp only [Function.comp_apply, Polynomial.eval_add, Polynomial.eval_mul,
    Polynomial.eval_C, Polynomial.eval_X]
  rw [getD_fix_pool x pool m b j hm hlen hb']
  ring

lemma list_sum_natDegree_le (d : Nat) :
    ∀ l : List (Polynomial F), (∀ q ∈ l, q.natDegree ≤ d) → l.sum.natDegree ≤ d
  | [], _ => by simp
  | q :: rest, h => by
    simp only [List.sum_cons]
    refine le_trans (Polynomial.natDegree_add_le _ _)
      (max_le (h q (by simp)) ?_)
    exact list_sum_natDegree_le d rest (fun q' hq' => h q' (List.mem_cons_of_mem _ hq'))

lemma list_map_natDegree_sum_le :
    ∀ l : List (Polynomial F), (∀ q ∈ l, q.natDegree ≤ 1) →
      (l.map Polynomial.natDegree).sum ≤ l.length
  | [], _ => by simp
  | q :: rest, h => by
    simp only [List.map_cons, List.sum_cons, List.length_cons]
    have h1 := h q (by simp)
    have h2 := list_map_natDegree_sum_le rest (fun q' hq' => h q' (List.mem_cons_of_mem _ hq'))
    omega

lemma round_polynomial_natDegree_le (pool : List (List F))
    (products : List (F × List Nat)) (m d : Nat)
    (hprod : ∀ pr ∈ products, pr.2.length ≤ d) :
    (round_polynomial pool products m).natDegree ≤ d := by
  unfold round_polynomial
  apply Polynomial.natDegree_sum_le_of_forall_le
  intro b _
  apply list_sum_natDegree_le
  intro q hq
  obtain ⟨pr, hpr, rfl⟩ := List.mem_map.mp hq
  refine le_trans (Polynomial.natDegree_C_mul_le _ _) ?_
  refine le_trans (Polynomial.natDegree_list_prod_le _) ?_
  refine le_trans (le_trans (le_of_eq (by rw [List.map_map]))
    (list_map_natDegree_sum_le (pr.2.map _) ?_)) ?_
  · intro q' hq'
    obtain ⟨j, _, rfl⟩ := List.mem_map.mp hq'
    refine le_trans (Polynomial.natDegree_add_le _ _) (max_le (by simp) ?_)
    exact le_trans (Polynomial.natDegree_C_mul_le _ _) Polynomial.natDegree_X_le
  · rw [List.length_map]
    exact hprod pr hpr

lemma nodesInj_injOn {d : Nat} (h : NodesInj F d) :
    Set.InjOn (fun i : Nat => (i : F)) (Finset.range (d + 1)) := by
  intro a ha b hb hab
  simp only [Finset.coe_range, Set.mem_Iio] at ha hb
  have := h ⟨a, ha⟩ ⟨b, hb⟩ (by simpa using hab)
  simpa [Fin.ext_iff] using this

lemma interpolate_uni_poly_eval (q : Polynomial F) (d : Nat) (hd : q.natDegree ≤ d)
    (hinj : NodesInj F d) (x : F) :
    interpolate_uni_poly ((List.range (d + 1)).map (fun t => q.eval ((t : Nat) : F))) x
      = q.eval x := by
  have hlen : ((List.range (d + 1)).map (fun t => q.eval ((t : Nat) : F))).length
      = d + 1 := by simp
  have hget : ∀ j < d + 1,
      ((List.range (d + 1)).map (fun t => q.eval ((t : Nat) : F))).getD j 0
        = q.eval ((j : Nat) : F) := by
    intro j hj
    rw [List.getD_eq_getElem _ _ (by simpa using hj)]
    simp
  have hdeg : q.degree < (Finset.range (d + 1)).card := by
    rw [Finset.card_range]
    rcases eq_or_ne q 0 with rfl | hq
    · simpa [Polynomial.degree_zero] using WithBot.bot_lt_coe (d + 1 : Nat)
    · rw [← Polynomial.natDegree_lt_iff_degree_lt hq]
      omega
  have hq_eq := Lagrange.eq_interpolate (v := fun i : Nat => (i : F))
    (nodesInj_injOn hinj) hdeg
  have hstep : interpolate_uni_poly
      ((List.range (d + 1)).map (fun t => q.eval ((t : Nat) : F))) x
      = Polynomial.eval x (Lagrange.interpolate (Finset.range (d + 1))
          (fun i : Nat => (i : F)) (fun i => q.eval ((i : Nat) : F))) := by
    rw [Lagrange.interpolate_apply, Polynomial.eval_finset_sum]
    unfold interpolate_uni_poly
    rw [hlen]
    apply Finset.sum_congr rfl
    intro j hj
    rw [hget j (Finset.mem_range.mp hj), Polynomial.eval_mul, Polynomial.eval_C]
    congr 1
    unfold Lagrange.basis
    rw [Polynomial.eval_prod]
    apply Finset.prod_congr rfl
    intro k _
    simp [Lagrange.basisDivisor]
  rw [hstep, ← hq_eq]

/-! Lemmas about the hypercube sum and final evaluation. -/

lemma foldl_fix_nil : ∀ rs : List F,
    rs.foldl (fun tb x => fix_variable x tb) [] = ([] : List F)
  | [] => rfl
  | r :: rest => by
    show rest.foldl _ (fix_variable r []) = []
    rw [fix_variable_nil]
    exact foldl_fix_nil rest

lemma hypercubeSum_eq_total_sum (p : ListOfProductsOfPolynomials F)
    (hlen : ∀ tab ∈ p.flattened_ml_extensions, tab.length = 2 ^ p.num_variables) :
    hypercubeSum p = total_sum p.flattened_ml_extensions p.products p.num_variables := by
  unfold hypercubeSum total_sum
  apply Finset.sum_congr rfl
  intro b hb
  have hb' : b < 2 ^ p.num_variables := Finset.mem_range.mp hb
  unfold ListOfProductsOfPolynomials.evaluate products_sum
  apply congrArg List.sum
  apply List.map_congr_left
  intro pr _
  congr 1
  apply congrArg List.prod
  apply List.map_congr_left
  intro j _
  rcases lt_or_ge j p.flattened_ml_extensions.length with hj | hj
  · have hmem : p.flattened_ml_extensions.getD j [] ∈ p.flattened_ml_extensions := by
      rw [List.getD_eq_getElem _ _ hj]
      exact List.getElem_mem hj
    exact mle_evaluate_boolPoint p.num_variables _ b (hlen _ hmem) hb'
  · rw [List.getD_eq_default _ _ hj]
    show mle_evaluate [] _ = _
    unfold mle_evaluate
    rw [foldl_fix_nil]
    simp

lemma evaluate_pool_after (p : ListOfProductsOfPolynomials F) (rs : List F) :
    p.evaluate rs = total_sum (pool_after p.flattened_ml_extensions rs) p.products 0 := by
  unfold total_sum
  rw [pow_zero, Finset.sum_range_one]
  unfold ListOfProductsOfPolynomials.evaluate products_sum
  apply congrArg List.sum
  apply List.map_congr_left
  intro pr _
  congr 1
  apply congrArg List.prod
  apply List.map_congr_left
  intro j _
  rw [pool_after_getD]
  rfl

/-! Lemmas about the prover and verifier round loops. -/

lemma receive_challenge_products (s : ProverState F) (v : Option F) :
    (receive_challenge s v).products = s.products := by cases v <;> rfl

lemma receive_challenge_max (s : ProverState F) (v : Option F) :
    (receive_challenge s v).max_multiplicands = s.max_multiplicands := by cases v <;> rfl

lemma receive_challenge_num_vars (s : ProverState F) (v : Option F) :
    (receive_challenge s v).num_vars = s.num_vars := by cases v <;> rfl

lemma receive_challenge_randomness (s : ProverState F) (v : Option F) :
    (receive_challenge s v).randomness = prRand s v := by
  cases v <;> simp [receive_challenge, prRand]

lemma msgsTrace_nil : msgsTrace ([] : List (ProverMsg F)) = [] := rfl

lemma msgsTrace_cons (m : ProverMsg F) (ms : List (ProverMsg F)) :
    msgsTrace (m :: ms)
      = TOp.absorb (TMsg.pmsg m.evaluations) :: TOp.squeeze :: msgsTrace ms := by
  simp [msgsTrace]

lemma prove_loop_acc (chal : List (TOp F) → F) :
    ∀ (k : Nat) (s : ProverState F) (v : Option F) (t : Transcript F)
      (a : List (ProverMsg F)),
      prove_loop chal k s v a t
        = ((prove_loop chal k s v [] t).1, (prove_loop chal k s v [] t).2.1,
           a ++ (prove_loop chal k s v [] t).2.2.1, (prove_loop chal k s v [] t).2.2.2)
  | 0, s, v, t, a => by simp [prove_loop]
  | k + 1, s, v, t, a => by
    show prove_loop chal k _ _ (a ++ [_]) _ = _
    rw [prove_loop_acc chal k _ _ _ (a ++ [(prove_round s v).2])]
    conv_rhs =>
      rw [show prove_loop chal (k + 1) s v [] t
            = prove_loop chal k (prove_round s v).1
              (some (sample_round chal
                (t.append_message (TMsg.pmsg (prove_round s v).2.evaluations))).1)
              ([] ++ [(prove_round s v).2])
              (sample_round chal
                (t.append_message (TMsg.pmsg (prove_round s v).2.evaluations))).2
          from rfl]
      rw [prove_loop_acc chal k _ _ _ ([] ++ [(prove_round s v).2])]
    simp

/-- Master correspondence lemma for the two round loops: running the
prover's loop for `k` rounds from a synchronized transcript produces `k`
messages; the transcript trace extends by the interleaved
absorb-then-squeeze operations; the emitted challenges `cs` extend the
prover's pending challenge sequence, each being the sponge output right
after the corresponding message was absorbed; the pending pool is the
initial pending pool progressively fixed at `cs`; and the verifier's
loop, run on exactly these messages from the same transcript, succeeds
with the same transcript and records the same messages and the same
challenges. -/
lemma prove_loop_spec (chal : List (TOp F) → F) :
    ∀ (k : Nat) (s : ProverState F) (v : Option F) (t : Transcript F)
      (s' : ProverState F) (v' : Option F) (ms : List (ProverMsg F)) (t' : Transcript F)
      (vs : VerifierState F),
      prove_loop chal k s v [] t = (s', v', ms, t') →
      ms.length = k ∧
      t'.ops = t.ops ++ msgsTrace ms ∧
      s'.products = s.products ∧
      s'.max_multiplicands = s.max_multiplicands ∧
      s'.num_vars = s.num_vars ∧
      (1 ≤ k → v'.isSome) ∧
      (1 ≤ k → ms.getD 0 ⟨[]⟩ = prover_message (receive_challenge s v)) ∧
      ∃ cs : List F,
        cs.length = k ∧
        prRand s' v' = prRand s v ++ cs ∧
        (∀ i, i < k → cs.getD i 0
          = chal (t.ops ++ msgsTrace (ms.take i)
              ++ [TOp.absorb (TMsg.pmsg ((ms.getD i ⟨[]⟩).evaluations))])) ∧
        (receive_challenge s' v').flattened_ml_extensions
          = pool_after (receive_challenge s v).flattened_ml_extensions cs ∧
        verify_loop chal k ms vs t
          = some ({ vs with
              polynomials_received :=
                vs.polynomials_received ++ ms.map (fun m => m.evaluations),
              randomness := vs.randomness ++ cs,
              round := vs.round + k }, t')
  | 0, s, v, t, s', v', ms, t', vs, h => by
    have h' : ((s, v, [], t) : ProverState F × Option F × List (ProverMsg F) × Transcript F)
        = (s', v', ms, t') := h
    injection h' with hA h'
    injection h' with hB h'
    injection h' with hC hD
    subst hA hB hD
    subst hC
    refine ⟨rfl, by simp [msgsTrace_nil], rfl, rfl, rfl, by omega, by omega,
      [], rfl, by simp [prRand], by omega, rfl, ?_⟩
    simp [verify_loop]
  | k + 1, s, v, t, s', v', ms, t', vs, h => by
    have hunf : prove_loop chal (k + 1) s v [] t
        = prove_loop chal k (prove_round s v).1
            (some (chal (t.append_message
              (TMsg.pmsg (prove_round s v).2.evaluations)).ops))
            [(prove_round s v).2]
            ((t.append_message
              (TMsg.pmsg (prove_round s v).2.evaluations)).push_squeeze) := rfl
    rw [hunf] at h
    set c := chal (t.append_message (TMsg.pmsg (prove_round s v).2.evaluations)).ops with hc
    set t2 := (t.append_message (TMsg.pmsg (prove_round s v).2.evaluations)).push_squeeze
      with ht2
    rw [prove_loop_acc chal k _ _ _ [(prove_round s v).2]] at h
    have hQ : prove_loop chal k (prove_round s v).1 (some c) [] t2
        = ((prove_loop chal k (prove_round s v).1 (some c) [] t2).1,
           (prove_loop chal k (prove_round s v).1 (some c) [] t2).2.1,
           (prove_loop chal k (prove_round s v).1 (some c) [] t2).2.2.1,
           (prove_loop chal k (prove_round s v).1 (some c) [] t2).2.2.2) := rfl
    injection h with hA h
    injection h with hB h
    injection h with hC hD
    obtain ⟨ihLen, ihOps, ihProd, ihMax, ihNv, ihSome, _ihMsg, cs', ihCsLen, ihRand,
      ihChal, ihPool, ihVerify⟩ :=
      prove_loop_spec chal k (prove_round s v).1 (some c) t2
        (prove_loop chal k (prove_round s v).1 (some c) [] t2).1
        (prove_loop chal k (prove_round s v).1 (some c) [] t2).2.1
        (prove_loop chal k (prove_round s v).1 (some c) [] t2).2.2.1
        (prove_loop chal k (prove_round s v).1 (some c) [] t2).2.2.2
        ({ vs with
            polynomials_received :=
              vs.polynomials_received ++ [(prove_round s v).2.evaluations],
            randomness := vs.randomness ++ [c],
            round := vs.round + 1 }) hQ
    subst hA hB hD
    subst hC
    constructor
    · simp [ihLen]
    constructor
    · rw [ihOps, ht2]
      simp [Transcript.append_message, Transcript.push_squeeze, msgsTrace_cons,
        List.append_assoc]
    constructor
    · rw [ihProd]
      show (receive_challenge s v).products = s.products
      exact receive_challenge_products s v
    constructor
    · rw [ihMax]
      show (receive_challenge s v).max_multiplicands = s.max_multiplicands
      exact receive_challenge_max s v
    constructor
    · rw [ihNv]
      show (receive_challenge s v).num_vars = s.num_vars
      exact receive_challenge_num_vars s v
    constructor
    · intro _
      rcases Nat.eq_zero_or_pos k with hk | hk
      · subst hk
        simp [prove_loop]
      · exact ihSome hk
    constructor
    · intro _
      rfl
    refine ⟨c :: cs', by simp [ihCsLen], ?_, ?_, ?_, ?_⟩
    · rw [ihRand]
      show (prove_round s v).1.randomness ++ [c] ++ cs' = prRand s v ++ (c :: cs')
      have hr : (prove_round s v).1.randomness = prRand s v := by
        show (receive_challenge s v).randomness = prRand s v
        exact receive_challenge_randomness s v
      rw [hr, List.append_assoc]
      rfl
    · intro i hi
      match i with
      | 0 =>
        simp only [List.getD_cons_zero]
        rw [hc]
        congr 1
        simp [Transcript.append_message, msgsTrace_nil]
      | i' + 1 =>
        have hi' : i' < k := by omega
        have := ihChal i' hi'
        simp only [List.getD_cons_succ]
        rw [this, ht2]
        congr 1
        simp [Transcript.append_message, Transcript.push_squeeze, msgsTrace_cons,
          List.append_assoc]
    · rw [ihPool]
      show pool_after ((receive_challenge s v).flattened_ml_extensions.map
          (fix_variable c)) cs' = _
      rfl
    · show verify_loop chal (k + 1)
        ((prove_round s v).2 :: (prove_loop chal k (prove_round s v).1 (some c) [] t2).2.2.1)
        vs t = _
      have hv : verify_loop chal (k + 1)
          ((prove_round s v).2 :: (prove_loop chal k (prove_round s v).1 (some c) [] t2).2.2.1)
          vs t
          = verify_loop chal k
              (prove_loop chal k (prove_round s v).1 (some c) [] t2).2.2.1
              ({ vs with
                  polynomials_received :=
                    vs.polynomials_received ++ [(prove_round s v).2.evaluations],
                  randomness := vs.randomness ++ [c],
                  round := vs.round + 1 }) t2 := rfl
      rw [hv, ihVerify]
      congr 1
      refine Prod.ext ?_ rfl
      simp [List.append_assoc]
      omega

lemma getD_range_map (f : Nat → F) (n j : Nat) (hj : j < n) :
    ((List.range n).map f).getD j 0 = f j := by
  rw [List.getD_eq_getElem _ _ (by simpa using hj)]
  simp

/-- Honest-prover invariant of the boundary-consistency replay: running
the verifier's finalization checks on the messages emitted by the honest
prover loop, starting from the current true partial sum, succeeds and
returns the true partial sum of the fully-fixed pool. -/
lemma check_rounds_honest (chal : List (TOp F) → F) :
    ∀ (k : Nat) (s : ProverState F) (v : Option F) (t : Transcript F)
      (s' : ProverState F) (v' : Option F) (ms : List (ProverMsg F)) (t' : Transcript F)
      (cs : List F) (d m : Nat) (pool : List (List F)) (prods : List (F × List Nat)),
      prove_loop chal k s v [] t = (s', v', ms, t') →
      prRand s' v' = prRand s v ++ cs →
      cs.length = k →
      d = s.max_multiplicands →
      prods = s.products →
      pool = (receive_challenge s v).flattened_ml_extensions →
      m = s.num_vars - (prRand s v).length →
      k ≤ m →
      1 ≤ d →
      NodesInj F d →
      (∀ pr ∈ prods, pr.2.length ≤ d) →
      (∀ tab ∈ pool, tab.length = 2 ^ m) →
      check_rounds d (ms.map (fun m => m.evaluations)) cs
          (total_sum pool prods m)
        = Except.ok (total_sum (pool_after pool cs) prods (m - k))
  | 0, s, v, t, s', v', ms, t', cs, d, m, pool, prods, h, hrand, hcslen,
      _, _, _, _, _, _, _, _, _ => by
    have h' : ((s, v, [], t) : ProverState F × Option F × List (ProverMsg F) × Transcript F)
        = (s', v', ms, t') := h
    injection h' with hA h'
    injection h' with hB h'
    injection h' with hC hD
    subst hA hB hD
    subst hC
    have hcs : cs = [] := List.length_eq_zero.mp hcslen
    subst hcs
    simp [check_rounds, pool_after]
  | k + 1, s, v, t, s', v', ms, t', cs, d, m, pool, prods, h, hrand, hcslen,
      hdEq, hprodsEq, hpoolEq, hmEq, hk, hd, hinj, hprods, hpool => by
    subst hdEq
    subst hprodsEq
    subst hpoolEq
    subst hmEq
    have hunf : prove_loop chal (k + 1) s v [] t
        = prove_loop chal k (prove_round s v).1
            (some (chal (t.append_message
              (TMsg.pmsg (prove_round s v).2.evaluations)).ops))
            [(prove_round s v).2]
            ((t.append_message
              (TMsg.pmsg (prove_round s v).2.evaluations)).push_squeeze) := rfl
    rw [hunf] at h
    set c := chal (t.append_message (TMsg.pmsg (prove_round s v).2.evaluations)).ops with hc
    set t2 := (t.append_message (TMsg.pmsg (prove_round s v).2.evaluations)).push_squeeze
      with ht2
    rw [prove_loop_acc chal k _ _ _ [(prove_round s v).2]] at h
    have hQ : prove_loop chal k (prove_round s v).1 (some c) [] t2
        = ((prove_loop chal k (prove_round s v).1 (some c) [] t2).1,
           (prove_loop chal k (prove_round s v).1 (some c) [] t2).2.1,
           (prove_loop chal k (prove_round s v).1 (some c) [] t2).2.2.1,
           (prove_loop chal k (prove_round s v).1 (some c) [] t2).2.2.2) := rfl
    injection h with hA h
    injection h with hB h
    injection h with hC hD
    -- the inner loop's challenge list, via the master lemma
    obtain ⟨_, _, _, _, _, _, _, cs2, hcs2len, hrand2, _, _, _⟩ :=
      prove_loop_spec chal k (prove_round s v).1 (some c) t2
        (prove_loop chal k (prove_round s v).1 (some c) [] t2).1
        (prove_loop chal k (prove_round s v).1 (some c) [] t2).2.1
        (prove_loop chal k (prove_round s v).1 (some c) [] t2).2.2.1
        (prove_loop chal k (prove_round s v).1 (some c) [] t2).2.2.2
        (verifier_init ⟨0, 0⟩) hQ
    have hrR : prRand (prove_round s v).1 (some c) = prRand s v ++ [c] := by
      show (receive_challenge s v).randomness ++ [c] = prRand s v ++ [c]
      rw [receive_challenge_randomness s v]
    have hcs : cs = c :: cs2 := by
      have h1 : prRand s v ++ cs = prRand s v ++ (c :: cs2) := by
        rw [← hrand]
        subst hA hB
        rw [hrand2, hrR, List.append_assoc]
        rfl
      exact List.append_cancel_left h1
    subst hcs
    subst hC
    -- abbreviations for the current round
    have hm1 : 1 ≤ s.num_vars - (prRand s v).length := by omega
    have hlen1 : ((prove_round s v).2.evaluations).length = s.max_multiplicands + 1 := by
      show ((List.range ((receive_challenge s v).max_multiplicands + 1)).map _).length = _
      rw [List.length_map, List.length_range, receive_challenge_max]
    have hmsg_getD : ∀ j, j < s.max_multiplicands + 1 →
        ((prove_round s v).2.evaluations).getD j 0
          = round_poly_eval (receive_challenge s v).flattened_ml_extensions
              s.products (s.num_vars - (prRand s v).length) ((j : Nat) : F) := by
      intro j hj
      show ((List.range ((receive_challenge s v).max_multiplicands + 1)).map _).getD j 0 = _
      rw [receive_challenge_max, getD_range_map _ _ j hj,
        receive_challenge_products, receive_challenge_num_vars,
        receive_challenge_randomness]
    have hboundary : ((prove_round s v).2.evaluations).getD 0 0
        + ((prove_round s v).2.evaluations).getD 1 0
        = total_sum (receive_challenge s v).flattened_ml_extensions s.products
            (s.num_vars - (prRand s v).length) := by
      rw [hmsg_getD 0 (by omega), hmsg_getD 1 (by omega)]
      rw [Nat.cast_zero, Nat.cast_one]
      exact round_boundary _ _ _ hm1 hpool
    -- the first two checks pass
    have hstep : check_rounds s.max_multiplicands
        (((prove_round s v).2 ::
          (prove_loop chal k (prove_round s v).1 (some c) [] t2).2.2.1).map
            (fun m => m.evaluations)) (c :: cs2)
        (total_sum (receive_challenge s v).flattened_ml_extensions s.products
          (s.num_vars - (prRand s v).length))
        = check_rounds s.max_multiplicands
            ((prove_loop chal k (prove_round s v).1 (some c) [] t2).2.2.1.map
              (fun m => m.evaluations)) cs2
            (interpolate_uni_poly ((prove_round s v).2.evaluations) c) := by
      simp only [List.map_cons, check_rounds]
      rw [if_neg (by rw [hlen1]; exact fun hcon => hcon rfl),
        if_neg (by rw [hboundary]; exact fun hcon => hcon rfl)]
    simp only [List.singleton_append]
    rw [hstep]
    -- identify the new expected value with the next true partial sum
    have hq_evals : (prove_round s v).2.evaluations
        = (List.range (s.max_multiplicands + 1)).map (fun j =>
            (round_polynomial (receive_challenge s v).flattened_ml_extensions
              s.products (s.num_vars - (prRand s v).length)).eval ((j : Nat) : F)) := by
      apply List.ext_getElem
      · rw [hlen1, List.length_map, List.length_range]
      · intro j hj1 hj2
        rw [List.length_map, List.length_range] at hj2
        have e1 : ((prove_round s v).2.evaluations)[j] =
            ((prove_round s v).2.evaluations).getD j 0 := by
          rw [List.getD_eq_getElem _ _ hj1]
        rw [e1, hmsg_getD j hj2, List.getElem_map]
        rw [round_polynomial_eval _ _ _ hm1 hpool]
        simp
    have hinterp : interpolate_uni_poly ((prove_round s v).2.evaluations) c
        = total_sum ((receive_challenge s v).flattened_ml_extensions.map
            (fix_variable c)) s.products (s.num_vars - (prRand s v).length - 1) := by
      rw [hq_evals, interpolate_uni_poly_eval _ _
        (round_polynomial_natDegree_le _ _ _ _ hprods) hinj c]
      rw [round_polynomial_eval _ _ _ hm1 hpool]
      rw [← total_sum_fix]
    rw [hinterp]
    -- apply the induction hypothesis for the remaining k rounds
    have hpool' : ∀ tab ∈ (receive_challenge s v).flattened_ml_extensions.map
        (fix_variable c), tab.length = 2 ^ (s.num_vars - (prRand s v).length - 1) := by
      intro tab htab
      obtain ⟨tab0, htab0, rfl⟩ := List.mem_map.mp htab
      rw [fix_variable_length, hpool tab0 htab0]
      have h2 : 2 ^ (s.num_vars - (prRand s v).length)
          = 2 ^ (s.num_vars - (prRand s v).length - 1) * 2 := by
        conv_lhs => rw [← Nat.sub_add_cancel hm1]
        rw [pow_succ]
      omega
    have hmEq' : s.num_vars - (prRand s v).length - 1
        = (prove_round s v).1.num_vars - (prRand (prove_round s v).1 (some c)).length := by
      show s.num_vars - (prRand s v).length - 1
          = (receive_challenge s v).num_vars
            - ((receive_challenge s v).randomness ++ [c]).length
      rw [receive_challenge_num_vars, receive_challenge_randomness, List.length_append]
      simp only [List.length_cons, List.length_nil]
      omega
    have hrec := check_rounds_honest chal k (prove_round s v).1 (some c) t2
      (prove_loop chal k (prove_round s v).1 (some c) [] t2).1
      (prove_loop chal k (prove_round s v).1 (some c) [] t2).2.1
      (prove_loop chal k (prove_round s v).1 (some c) [] t2).2.2.1
      (prove_loop chal k (prove_round s v).1 (some c) [] t2).2.2.2
      cs2 s.max_multiplicands (s.num_vars - (prRand s v).length - 1)
      ((receive_challenge s v).flattened_ml_extensions.map (fix_variable c))
      s.products
      hQ (by subst hA hB; exact hrand2) hcs2len
      ((receive_challenge_max s v).symm)
      ((receive_challenge_products s v).symm)
      (by rfl)
      hmEq'
      (by omega) hd hinj hprods hpool'
    rw [hrec]
    have hfinal : pool_after ((receive_challenge s v).flattened_ml_extensions.map
        (fix_variable c)) cs2
        = pool_after (receive_challenge s v).flattened_ml_extensions (c :: cs2) := rfl
    rw [hfinal]
    have harith2 : s.num_vars - (prRand s v).length - 1 - k
        = s.num_vars - (prRand s v).length - (k + 1) := by omega
    rw [harith2]

/-- Eliminate a successful `prove` into its loop components. -/
lemma prove_some_elim (chal : List (TOp F) → F) (t : Transcript F)
    (p : ListOfProductsOfPolynomials F) (pf : Proof F) (ps : ProverState F)
    (t1 : Transcript F) (hp : prove chal t p = some (pf, ps, t1)) :
    ∃ c : F,
      (prove_loop chal p.num_variables (prover_init p) none []
        (t.append_message (TMsg.info p.num_variables p.max_multiplicands))).2.1
          = some c ∧
      pf = (prove_loop chal p.num_variables (prover_init p) none []
        (t.append_message (TMsg.info p.num_variables p.max_multiplicands))).2.2.1 ∧
      ps = { (prove_loop chal p.num_variables (prover_init p) none []
          (t.append_message (TMsg.info p.num_variables p.max_multiplicands))).1 with
        randomness := (prove_loop chal p.num_variables (prover_init p) none []
          (t.append_message (TMsg.info p.num_variables p.max_multiplicands))).1.randomness
            ++ [c] } ∧
      t1 = (prove_loop chal p.num_variables (prover_init p) none []
        (t.append_message (TMsg.info p.num_variables p.max_multiplicands))).2.2.2 := by
  have hpe : prove chal t p
      = (match (prove_loop chal p.num_variables (prover_init p) none []
            (t.append_message (TMsg.info p.num_variables p.max_multiplicands))).2.1 with
        | none => none
        | some c =>
          some ((prove_loop chal p.num_variables (prover_init p) none []
              (t.append_message (TMsg.info p.num_variables p.max_multiplicands))).2.2.1,
            { (prove_loop chal p.num_variables (prover_init p) none []
                (t.append_message (TMsg.info p.num_variables p.max_multiplicands))).1 with
              randomness := (prove_loop chal p.num_variables (prover_init p) none []
                (t.append_message
                  (TMsg.info p.num_variables p.max_multiplicands))).1.randomness ++ [c] },
            (prove_loop chal p.num_variables (prover_init p) none []
              (t.append_message
                (TMsg.info p.num_variables p.max_multiplicands))).2.2.2)) := rfl
  rw [hpe] at hp
  cases hv : (prove_loop chal p.num_variables (prover_init p) none []
      (t.append_message (TMsg.info p.num_variables p.max_multiplicands))).2.1 with
  | none => rw [hv] at hp; simp at hp
  | some c =>
    rw [hv] at hp
    simp only [Option.some.injEq, Prod.mk.injEq] at hp
    exact ⟨c, rfl, hp.1.symm, hp.2.1.symm, hp.2.2.symm⟩

/-- A successful verifier loop consumed exactly the first `k` proof
messages: the trace extends by their interleaved absorb/squeeze
operations, and `k` challenges were recorded. -/
lemma verify_loop_trace (chal : List (TOp F) → F) :
    ∀ (k : Nat) (rest : List (ProverMsg F)) (vs : VerifierState F) (t : Transcript F)
      (vs' : VerifierState F) (t' : Transcript F),
      verify_loop chal k rest vs t = some (vs', t') →
      k ≤ rest.length ∧
      t'.ops = t.ops ++ msgsTrace (rest.take k) ∧
      vs'.randomness.length = vs.randomness.length + k ∧
      vs'.polynomials_received
        = vs.polynomials_received ++ (rest.take k).map (fun m => m.evaluations) ∧
      vs'.round = vs.round + k
  | 0, rest, vs, t, vs', t', h => by
    have h' : (some (vs, t) : Option (VerifierState F × Transcript F))
        = some (vs', t') := h
    simp only [Option.some.injEq, Prod.mk.injEq] at h'
    obtain ⟨rfl, rfl⟩ := h'
    refine ⟨Nat.zero_le _, by simp [msgsTrace_nil], by simp, by simp, by simp⟩
  | k + 1, [], vs, t, vs', t', h => by
    simp [verify_loop] at h
  | k + 1, msg :: rest2, vs, t, vs', t', h => by
    have h' : verify_loop chal k rest2
        ({ vs with
            polynomials_received := vs.polynomials_received ++ [msg.evaluations]
            randomness := vs.randomness
              ++ [chal (t.append_message (TMsg.pmsg msg.evaluations)).ops]
            round := vs.round + 1 })
        ((t.append_message (TMsg.pmsg msg.evaluations)).push_squeeze)
        = some (vs', t') := h
    obtain ⟨ih1, ih2, ih3, ih4, ih5⟩ := verify_loop_trace chal k rest2 _ _ vs' t' h'
    have ih3' : vs'.randomness.length
        = (vs.randomness
            ++ [chal (t.append_message (TMsg.pmsg msg.evaluations)).ops]).length + k :=
      ih3
    have ih4' : vs'.polynomials_received
        = (vs.polynomials_received ++ [msg.evaluations])
          ++ (rest2.take k).map (fun m => m.evaluations) := ih4
    have ih5' : vs'.round = (vs.round + 1) + k := ih5
    refine ⟨by simpa using Nat.succ_le_succ ih1, ?_, ?_, ?_, ?_⟩
    · rw [ih2]
      simp [Transcript.append_message, Transcript.push_squeeze, msgsTrace_cons,
        List.take_succ_cons, List.append_assoc]
    · rw [ih3', List.length_append]
      simp only [List.length_cons, List.length_nil]
      omega
    · rw [ih4']
      simp [List.take_succ_cons, List.append_assoc]
    · rw [ih5']
      omega

/-- A proof shorter than the number of rounds makes the verifier loop
panic (hit the `expect`), modelled as `none`. -/
lemma verify_loop_short (chal : List (TOp F) → F) :
    ∀ (k : Nat) (rest : List (ProverMsg F)) (vs : VerifierState F) (t : Transcript F),
      rest.length < k → verify_loop chal k rest vs t = none
  | 0, rest, vs, t, h => by omega
  | k + 1, [], vs, t, _ => rfl
  | k + 1, msg :: rest2, vs, t, h => by
    have h2 : rest2.length < k := by simpa using h
    exact verify_loop_short chal k rest2 _ _ h2

lemma squeezeCount_append (a b : List (TOp F)) :
    squeezeCount (a ++ b) = squeezeCount a + squeezeCount b := by
  unfold squeezeCount
  exact List.countP_append _ _ _

lemma squeezeCount_msgsTrace (l : List (ProverMsg F)) :
    squeezeCount (msgsTrace l) = l.length := by
  induction l with
  | nil => rfl
  | cons m rest ih =>
    rw [msgsTrace_cons]
    unfold squeezeCount at ih ⊢
    simp [List.countP_cons, ih]

/-- A passing first round of the finalization checks pins the claimed sum
to the first message's boundary sum. -/
lemma check_rounds_cons_ok (d : Nat) (e0 : List F) (ms : List (List F)) (r : F)
    (rs : List F) (expected e : F)
    (h : check_rounds d (e0 :: ms) (r :: rs) expected = Except.ok e) :
    e0.getD 0 0 + e0.getD 1 0 = expected := by
  by_cases h1 : e0.length ≠ d + 1
  · exfalso
    have hval : check_rounds d (e0 :: ms) (r :: rs) expected
        = Except.error Error.MalformedProof := by
      show (if e0.length ≠ d + 1 then Except.error Error.MalformedProof
        else if e0.getD 0 0 + e0.getD 1 0 ≠ expected then
          Except.error Error.VerificationFailed
        else check_rounds d ms rs (interpolate_uni_poly e0 r)) = _
      rw [if_pos h1]
    rw [hval] at h
    exact Except.noConfusion h
  · by_cases h2 : e0.getD 0 0 + e0.getD 1 0 = expected
    · exact h2
    · exfalso
      have hval : check_rounds d (e0 :: ms) (r :: rs) expected
          = Except.error Error.VerificationFailed := by
        show (if e0.length ≠ d + 1 then Except.error Error.MalformedProof
          else if e0.getD 0 0 + e0.getD 1 0 ≠ expected then
            Except.error Error.VerificationFailed
          else check_rounds d ms rs (interpolate_uni_poly e0 r)) = _
        rw [if_neg h1, if_pos h2]
      rw [hval] at h
      exact Except.noConfusion h

/-- Decompose a successful `check_and_generate_subclaim`. -/
lemma check_and_generate_subclaim_ok (vs : VerifierState F) (claimed : F)
    (sc : SubClaim F)
    (h : check_and_generate_subclaim vs claimed = Except.ok sc) :
    vs.polynomials_received.length = vs.num_variables ∧
    vs.randomness.length = vs.num_variables ∧
    ∃ e, check_rounds vs.max_multiplicands vs.polynomials_received vs.randomness claimed
        = Except.ok e ∧
      sc = ⟨vs.randomness, e⟩ := by
  unfold check_and_generate_subclaim at h
  by_cases hg : vs.polynomials_received.length = vs.num_variables ∧
      vs.randomness.length = vs.num_variables
  · rw [if_pos hg] at h
    cases hcr : check_rounds vs.max_multiplicands vs.polynomials_received
        vs.randomness claimed with
    | error e => rw [hcr] at h; simp at h
    | ok e =>
      rw [hcr] at h
      simp only [Except.ok.injEq] at h
      exact ⟨hg.1, hg.2, e, rfl, h.symm⟩
  · rw [if_neg hg] at h
    simp at h

/-- The two boundary evaluations of an honest round message sum to the
true partial sum of the current tables. -/
lemma prover_message_boundary (s : ProverState F)
    (hm : 1 ≤ s.num_vars - s.randomness.length)
    (hd : 1 ≤ s.max_multiplicands)
    (hpool : ∀ tab ∈ s.flattened_ml_extensions,
      tab.length = 2 ^ (s.num_vars - s.randomness.length)) :
    (prover_message s).evaluations.getD 0 0 + (prover_message s).evaluations.getD 1 0
      = total_sum s.flattened_ml_extensions s.products
          (s.num_vars - s.randomness.length) := by
  have hg : ∀ j, j < s.max_multiplicands + 1 →
      (prover_message s).evaluations.getD j 0
        = round_poly_eval s.flattened_ml_extensions s.products
            (s.num_vars - s.randomness.length) ((j : Nat) : F) := by
    intro j hj
    show ((List.range (s.max_multiplicands + 1)).map _).getD j 0 = _
    rw [getD_range_map _ _ j hj]
  rw [hg 0 (by omega), hg 1 (by omega), Nat.cast_zero, Nat.cast_one]
  exact round_boundary _ _ _ hm hpool

/-- Complete characterization of an honest prover/verifier run: from any
successful `prove` on a valid polynomial, `verify` on the same seed
reaches `check_and_generate_subclaim` with the verifier state holding
exactly the proof's messages and the prover's challenge sequence, and the
replayed checks started at the true sum succeed, ending at the
polynomial's evaluation at that challenge point. -/
lemma honest_setup (chal : List (TOp F) → F) (t : Transcript F)
    (p : ListOfProductsOfPolynomials F) (hwf : Wf p)
    (hinj : NodesInj F p.max_multiplicands) (pf : Proof F) (ps : ProverState F)
    (t1 : Transcript F) (hp : prove chal t p = some (pf, ps, t1)) :
    ∃ (cs : List F) (t2 : Transcript F),
      cs.length = p.num_variables ∧
      pf.length = p.num_variables ∧
      ps.randomness = cs ∧
      (∀ claimed : F, verify chal t p.info claimed pf
        = some (check_and_generate_subclaim
            ⟨p.num_variables, p.max_multiplicands, p.num_variables,
              pf.map (fun m => m.evaluations), cs⟩ claimed, t2)) ∧
      check_rounds p.max_multiplicands (pf.map (fun m => m.evaluations)) cs
          (total_sum p.flattened_ml_extensions p.products p.num_variables)
        = Except.ok (p.evaluate cs) ∧
      pf.getD 0 ⟨[]⟩ = prover_message (prover_init p) := by
  obtain ⟨hn1, hd1, hlen, hprods⟩ := hwf
  obtain ⟨c, hv', hpf, hps, _⟩ := prove_some_elim chal t p pf ps t1 hp
  obtain ⟨ihLen, _, _, _, _, _, ihMsg, cs, ihCsLen, ihRand, _, _, ihVerify⟩ :=
    prove_loop_spec chal p.num_variables (prover_init p) none
      (t.append_message (TMsg.info p.num_variables p.max_multiplicands))
      (prove_loop chal p.num_variables (prover_init p) none []
        (t.append_message (TMsg.info p.num_variables p.max_multiplicands))).1
      (prove_loop chal p.num_variables (prover_init p) none []
        (t.append_message (TMsg.info p.num_variables p.max_multiplicands))).2.1
      (prove_loop chal p.num_variables (prover_init p) none []
        (t.append_message (TMsg.info p.num_variables p.max_multiplicands))).2.2.1
      (prove_loop chal p.num_variables (prover_init p) none []
        (t.append_message (TMsg.info p.num_variables p.max_multiplicands))).2.2.2
      (verifier_init p.info) rfl
  rw [hv'] at ihRand
  rw [← hpf] at ihLen ihVerify ihMsg
  have hpsr : ps.randomness = cs := by
    rw [hps]
    show (prove_loop chal p.num_variables (prover_init p) none []
        (t.append_message (TMsg.info p.num_variables p.max_multiplicands))).1.randomness
      ++ [c] = cs
    exact ihRand
  refine ⟨cs, (prove_loop chal p.num_variables (prover_init p) none []
      (t.append_message (TMsg.info p.num_variables p.max_multiplicands))).2.2.2,
    ihCsLen, ihLen, hpsr, ?_, ?_, ?_⟩
  · intro claimed
    have hve : verify chal t p.info claimed pf
        = (match verify_loop chal p.num_variables pf (verifier_init p.info)
            (t.append_message (TMsg.info p.num_variables p.max_multiplicands)) with
          | none => none
          | some vt => some (check_and_generate_subclaim vt.1 claimed, vt.2)) := rfl
    rw [hve, ihVerify]
    have hvs : ({ (verifier_init p.info : VerifierState F) with
        polynomials_received := (verifier_init p.info : VerifierState F).polynomials_received
          ++ pf.map (fun m => m.evaluations)
        randomness := (verifier_init p.info : VerifierState F).randomness ++ cs
        round := (verifier_init p.info : VerifierState F).round + p.num_variables }
          : VerifierState F)
        = (⟨p.num_variables, p.max_multiplicands, p.num_variables,
            pf.map (fun m => m.evaluations), cs⟩ : VerifierState F) := by
      simp [verifier_init, ListOfProductsOfPolynomials.info]
    exact congrArg (fun z => some (check_and_generate_subclaim z claimed,
      (prove_loop chal p.num_variables (prover_init p) none []
        (t.append_message (TMsg.info p.num_variables p.max_multiplicands))).2.2.2)) hvs
  · have hchk := check_rounds_honest chal p.num_variables (prover_init p) none
      (t.append_message (TMsg.info p.num_variables p.max_multiplicands))
      (prove_loop chal p.num_variables (prover_init p) none []
        (t.append_message (TMsg.info p.num_variables p.max_multiplicands))).1
      (prove_loop chal p.num_variables (prover_init p) none []
        (t.append_message (TMsg.info p.num_variables p.max_multiplicands))).2.1
      (prove_loop chal p.num_variables (prover_init p) none []
        (t.append_message (TMsg.info p.num_variables p.max_multiplicands))).2.2.1
      (prove_loop chal p.num_variables (prover_init p) none []
        (t.append_message (TMsg.info p.num_variables p.max_multiplicands))).2.2.2
      cs p.max_multiplicands p.num_variables p.flattened_ml_extensions p.products
      rfl (by rw [hv']; exact ihRand) ihCsLen rfl rfl rfl rfl (le_refl _) hd1 hinj
      (fun pr hpr => (hprods pr hpr).1) hlen
    rw [hpf]
    rw [hchk, Nat.sub_self, ← evaluate_pool_after]
  · rw [ihMsg hn1]
    rfl

/-- Eliminate a successful `verify` into its loop components. -/
lemma verify_some_elim (chal : List (TOp F) → F) (t : Transcript F)
    (info : PolynomialInfo) (claimed : F) (proof : Proof F)
    (res : Except Error (SubClaim F)) (t2 : Transcript F)
    (hv : verify chal t info claimed proof = some (res, t2)) :
    ∃ vs' : VerifierState F,
      verify_loop chal info.num_variables proof (verifier_init info)
        (t.append_message (TMsg.info info.num_variables info.max_multiplicands))
        = some (vs', t2) ∧
      res = check_and_generate_subclaim vs' claimed := by
  have hve : verify chal t info claimed proof
      = (match verify_loop chal info.num_variables proof (verifier_init info)
          (t.append_message (TMsg.info info.num_variables info.max_multiplicands)) with
        | none => none
        | some vt => some (check_and_generate_subclaim vt.1 claimed, vt.2)) := rfl
  rw [hve] at hv
  cases hvl : verify_loop chal info.num_variables proof (verifier_init info)
      (t.append_message (TMsg.info info.num_variables info.max_multiplicands)) with
  | none => rw [hvl] at hv; simp at hv
  | some vt =>
    rw [hvl] at hv
    simp only [Option.some.injEq, Prod.mk.injEq] at hv
    refine ⟨vt.1, ?_, hv.1.symm⟩
    exact congrArg (fun x => some (vt.1, x)) hv.2

/-- C1.  Completeness: for every valid `ListOfProductsOfPolynomials` with
true hypercube sum `S`, running `prove` and then `verify` with the
polynomial's `info()`, `S` and the produced proof, on identically-seeded
transcripts (same sponge `chal`, same initial transcript), returns a
`SubClaim` and never a verification failure. -/
theorem sumcheck_completeness (chal : List (TOp F) → F) (t : Transcript F)
    (p : ListOfProductsOfPolynomials F) (hwf : Wf p)
    (hinj : NodesInj F p.max_multiplicands)
    (pf : Proof F) (ps : ProverState F) (t1 : Transcript F)
    (hp : prove chal t p = some (pf, ps, t1)) :
    ∃ (sc : SubClaim F) (t2 : Transcript F),
      verify chal t p.info (hypercubeSum p) pf = some (Except.ok sc, t2) := by
  obtain ⟨cs, t2, hcslen, hpflen, hpsr, hverify, hchk, hmsg0⟩ :=
    honest_setup chal t p hwf hinj pf ps t1 hp
  refine ⟨⟨cs, p.evaluate cs⟩, t2, ?_⟩
  rw [hverify (hypercubeSum p)]
  have hcg : check_and_generate_subclaim
      (⟨p.num_variables, p.max_multiplicands, p.num_variables,
        pf.map (fun m => m.evaluations), cs⟩ : VerifierState F) (hypercubeSum p)
      = Except.ok ⟨cs, p.evaluate cs⟩ := by
    unfold check_and_generate_subclaim
    rw [if_pos ⟨by simp [hpflen], hcslen⟩]
    rw [show hypercubeSum p
        = total_sum p.flattened_ml_extensions p.products p.num_variables from
      hypercubeSum_eq_total_sum p hwf.2.2.1]
    rw [hchk]
  rw [hcg]

/-- C4.  Subclaim correctness: for the same proof and the same transcript
seed, whenever `verify` returns a subclaim, its `point` equals exactly the
`randomness` sequence recorded in the `ProverState` returned by `prove`,
and its `expected_evaluation` equals the true polynomial evaluated at that
point. -/
theorem subclaim_correctness (chal : List (TOp F) → F) (t : Transcript F)
    (p : ListOfProductsOfPolynomials F) (hwf : Wf p)
    (hinj : NodesInj F p.max_multiplicands)
    (pf : Proof F) (ps : ProverState F) (t1 : Transcript F)
    (hp : prove chal t p = some (pf, ps, t1))
    (claimed : F) (sc : SubClaim F) (t2 : Transcript F)
    (hv : verify chal t p.info claimed pf = some (Except.ok sc, t2)) :
    sc.point = ps.randomness ∧ sc.expected_evaluation = p.evaluate ps.randomness := by
  obtain ⟨cs, t2', hcslen, hpflen, hpsr, hverify, hchk, hmsg0⟩ :=
    honest_setup chal t p hwf hinj pf ps t1 hp
  rw [hverify claimed] at hv
  simp only [Option.some.injEq, Prod.mk.injEq] at hv
  obtain ⟨hcg, _⟩ := hv
  obtain ⟨_, _, e, hcr, hsc⟩ := check_and_generate_subclaim_ok _ _ _ hcg
  have hsc' : sc = ⟨cs, e⟩ := hsc
  have hn1 : 1 ≤ p.num_variables := hwf.1
  obtain ⟨m0, pfrest, rfl⟩ : ∃ m0 rest, pf = m0 :: rest := by
    cases pf with
    | nil => exact absurd hpflen.symm (by simpa using Nat.ne_of_gt hn1)
    | cons a l => exact ⟨a, l, rfl⟩
  obtain ⟨r0, csrest, rfl⟩ : ∃ r0 rest, cs = r0 :: rest := by
    cases cs with
    | nil => exact absurd hcslen.symm (by simpa using Nat.ne_of_gt hn1)
    | cons a l => exact ⟨a, l, rfl⟩
  have hcr' : check_rounds p.max_multiplicands
      (m0.evaluations :: pfrest.map (fun m => m.evaluations)) (r0 :: csrest) claimed
      = Except.ok e := hcr
  have hm0 : m0 = prover_message (prover_init p) := by
    have := hmsg0
    simpa using this
  have hclaimed : claimed = total_sum p.flattened_ml_extensions p.products
      p.num_variables := by
    have hb := check_rounds_cons_ok _ _ _ _ _ _ _ hcr'
    rw [hm0] at hb
    rw [← hb]
    exact prover_message_boundary (prover_init p) hn1 hwf.2.1 hwf.2.2.1
  rw [hclaimed] at hcr'
  have hee : e = p.evaluate (r0 :: csrest) := by
    have h2 : (Except.ok e : Except Error F)
        = Except.ok (p.evaluate (r0 :: csrest)) := by
      rw [← hcr']
      exact hchk
    simpa using h2
  constructor
  · rw [hsc', hpsr]
  · rw [hsc', hpsr, hee]

/-- C5.  Round-trip: for every valid polynomial, `extract_sum` applied to
the proof produced by `prove` returns the true hypercube sum (the claimed
sum later supplied to `verify` plays no role: `extract_sum` reads the
proof alone). -/
theorem extract_sum_roundtrip (chal : List (TOp F) → F) (t : Transcript F)
    (p : ListOfProductsOfPolynomials F) (hwf : Wf p)
    (pf : Proof F) (ps : ProverState F) (t1 : Transcript F)
    (hp : prove chal t p = some (pf, ps, t1)) :
    extract_sum pf = hypercubeSum p := by
  obtain ⟨c, hv', hpf, hps, _⟩ := prove_some_elim chal t p pf ps t1 hp
  obtain ⟨_, _, _, _, _, _, ihMsg, _⟩ :=
    prove_loop_spec chal p.num_variables (prover_init p) none
      (t.append_message (TMsg.info p.num_variables p.max_multiplicands))
      (prove_loop chal p.num_variables (prover_init p) none []
        (t.append_message (TMsg.info p.num_variables p.max_multiplicands))).1
      (prove_loop chal p.num_variables (prover_init p) none []
        (t.append_message (TMsg.info p.num_variables p.max_multiplicands))).2.1
      (prove_loop chal p.num_variables (prover_init p) none []
        (t.append_message (TMsg.info p.num_variables p.max_multiplicands))).2.2.1
      (prove_loop chal p.num_variables (prover_init p) none []
        (t.append_message (TMsg.info p.num_variables p.max_multiplicands))).2.2.2
      (verifier_init p.info) rfl
  rw [← hpf] at ihMsg
  have hmsg0 : pf.getD 0 ⟨[]⟩ = prover_message (prover_init p) := by
    rw [ihMsg hwf.1]
    rfl
  show ((pf.getD 0 ⟨[]⟩).evaluations).getD 0 0
    + ((pf.getD 0 ⟨[]⟩).evaluations).getD 1 0 = _
  rw [hmsg0, prover_message_boundary (prover_init p) hwf.1 hwf.2.1 hwf.2.2.1]
  exact (hypercubeSum_eq_total_sum p hwf.2.2.1).symm

/-- C6.  `extract_sum` returns the sum of the first round message's two
boundary evaluations `g_1(0) + g_1(1)` (positions `0` and `1` of its
evaluation list), computed from the proof alone with no externally
supplied claim. -/
theorem extract_sum_boundary (proof : Proof F) (m0 : ProverMsg F) (a b : F)
    (h0 : proof[0]? = some m0) (ha : m0.evaluations[0]? = some a)
    (hb : m0.evaluations[1]? = some b) :
    extract_sum proof = a + b := by
  unfold extract_sum
  have e0 : proof.getD 0 ⟨[]⟩ = m0 := by
    rw [List.getD_eq_getElem?_getD, h0]
    rfl
  have e1 : m0.evaluations.getD 0 0 = a := by
    rw [List.getD_eq_getElem?_getD, ha]
    rfl
  have e2 : m0.evaluations.getD 1 0 = b := by
    rw [List.getD_eq_getElem?_getD, hb]
    rfl
  rw [e0, e1, e2]

/-- C8.  The proof returned by `prove` is the ordered sequence of
`ProverMsg` with exactly one message per variable (length
`num_variables`), emitted in round order: the transcript trace shows the
messages absorbed in exactly the order they appear in the proof. -/
theorem proof_length_round_order (chal : List (TOp F) → F) (t : Transcript F)
    (p : ListOfProductsOfPolynomials F)
    (pf : Proof F) (ps : ProverState F) (t1 : Transcript F)
    (hp : prove chal t p = some (pf, ps, t1)) :
    pf.length = p.num_variables ∧
    t1.ops = t.ops ++ TOp.absorb (TMsg.info p.num_variables p.max_multiplicands)
      :: msgsTrace pf := by
  obtain ⟨c, hv', hpf, hps, ht1⟩ := prove_some_elim chal t p pf ps t1 hp
  obtain ⟨ihLen, ihOps, _⟩ :=
    prove_loop_spec chal p.num_variables (prover_init p) none
      (t.append_message (TMsg.info p.num_variables p.max_multiplicands))
      (prove_loop chal p.num_variables (prover_init p) none []
        (t.append_message (TMsg.info p.num_variables p.max_multiplicands))).1
      (prove_loop chal p.num_variables (prover_init p) none []
        (t.append_message (TMsg.info p.num_variables p.max_multiplicands))).2.1
      (prove_loop chal p.num_variables (prover_init p) none []
        (t.append_message (TMsg.info p.num_variables p.max_multiplicands))).2.2.1
      (prove_loop chal p.num_variables (prover_init p) none []
        (t.append_message (TMsg.info p.num_variables p.max_multiplicands))).2.2.2
      (verifier_init p.info) rfl
  rw [← hpf] at ihLen ihOps
  refine ⟨ihLen, ?_⟩
  rw [ht1, ← hpf] at *
  rw [ihOps]
  simp [Transcript.append_message, List.append_assoc]

/-- C9.  `SumcheckKit.extract` returns a `ProofWrapper` whose
`claimed_sum`, `info` and `proof` equal the kit's corresponding fields
(the wrapper's type has no `u` or `randomness` field at all, so they are
omitted rather than zeroed), and, being a pure function of an immutable
value, leaves the kit unchanged. -/
theorem kit_extract_fields (k : SumcheckKit F) :
    (k.extract).claimed_sum = k.claimed_sum ∧ (k.extract).info = k.info ∧
      (k.extract).proof = k.proof :=
  ⟨rfl, rfl, rfl⟩

/-- C10.  `prove` is total exactly for `num_variables ≥ 1`: with zero
variables the round loop never executes, `verifier_msg` stays `None` and
the final `unwrap` aborts (modelled by `none`); with at least one
variable, `prove` always returns its success value (the source's `Result`
has no reachable error branch). -/
theorem prove_totality (chal : List (TOp F) → F) (t : Transcript F)
    (p : ListOfProductsOfPolynomials F) :
    (p.num_variables = 0 → prove chal t p = none) ∧
    (1 ≤ p.num_variables →
      ∃ (pf : Proof F) (ps : ProverState F) (t1 : Transcript F),
        prove chal t p = some (pf, ps, t1)) := by
  have hpe : prove chal t p
      = (match (prove_loop chal p.num_variables (prover_init p) none []
            (t.append_message (TMsg.info p.num_variables p.max_multiplicands))).2.1 with
        | none => none
        | some c =>
          some ((prove_loop chal p.num_variables (prover_init p) none []
              (t.append_message (TMsg.info p.num_variables p.max_multiplicands))).2.2.1,
            { (prove_loop chal p.num_variables (prover_init p) none []
                (t.append_message (TMsg.info p.num_variables p.max_multiplicands))).1 with
              randomness := (prove_loop chal p.num_variables (prover_init p) none []
                (t.append_message
                  (TMsg.info p.num_variables p.max_multiplicands))).1.randomness ++ [c] },
            (prove_loop chal p.num_variables (prover_init p) none []
              (t.append_message
                (TMsg.info p.num_variables p.max_multiplicands))).2.2.2)) := rfl
  constructor
  · intro h0
    rw [hpe]
    rw [h0]
    rfl
  · intro h1
    obtain ⟨_, _, _, _, _, ihSome, _⟩ :=
      prove_loop_spec chal p.num_variables (prover_init p) none
        (t.append_message (TMsg.info p.num_variables p.max_multiplicands))
        (prove_loop chal p.num_variables (prover_init p) none []
          (t.append_message (TMsg.info p.num_variables p.max_multiplicands))).1
        (prove_loop chal p.num_variables (prover_init p) none []
          (t.append_message (TMsg.info p.num_variables p.max_multiplicands))).2.1
        (prove_loop chal p.num_variables (prover_init p) none []
          (t.append_message (TMsg.info p.num_variables p.max_multiplicands))).2.2.1
        (prove_loop chal p.num_variables (prover_init p) none []
          (t.append_message (TMsg.info p.num_variables p.max_multiplicands))).2.2.2
        (verifier_init p.info) rfl
    obtain ⟨c, hc⟩ := Option.isSome_iff_exists.mp (ihSome h1)
    refine ⟨(prove_loop chal p.num_variables (prover_init p) none []
        (t.append_message (TMsg.info p.num_variables p.max_multiplicands))).2.2.1,
      { (prove_loop chal p.num_variables (prover_init p) none []
          (t.append_message (TMsg.info p.num_variables p.max_multiplicands))).1 with
        randomness := (prove_loop chal p.num_variables (prover_init p) none []
          (t.append_message
            (TMsg.info p.num_variables p.max_multiplicands))).1.randomness ++ [c] },
      (prove_loop chal p.num_variables (prover_init p) none []
        (t.append_message (TMsg.info p.num_variables p.max_multiplicands))).2.2.2, ?_⟩
    rw [hpe, hc]

/-- C7.  Fiat-Shamir ordering: in `prove`, the polynomial shape metadata
is absorbed as the very first message, and in every round the `ProverMsg`
is absorbed before the corresponding challenge is sampled - the final
transcript trace is exactly `absorb info` followed by the interleaved
absorb-message/squeeze pairs in round order, and the i-th recorded
challenge is the sponge output on the history ending with the absorption
of the i-th message.  Likewise the transcript of a completed `verify` has
the same info-first, absorb-then-squeeze shape. -/
theorem transcript_ordering (chal : List (TOp F) → F) (t : Transcript F)
    (p : ListOfProductsOfPolynomials F)
    (pf : Proof F) (ps : ProverState F) (t1 : Transcript F)
    (hp : prove chal t p = some (pf, ps, t1)) :
    t1.ops = t.ops ++ TOp.absorb (TMsg.info p.num_variables p.max_multiplicands)
      :: msgsTrace pf ∧
    (∀ i, i < pf.length → ps.randomness.getD i 0
      = chal (t.ops ++ TOp.absorb (TMsg.info p.num_variables p.max_multiplicands)
          :: (msgsTrace (pf.take i)
            ++ [TOp.absorb (TMsg.pmsg ((pf.getD i ⟨[]⟩).evaluations))]))) ∧
    (∀ (info : PolynomialInfo) (claimed : F) (proof : Proof F)
        (res : Except Error (SubClaim F)) (t2 : Transcript F),
      verify chal t info claimed proof = some (res, t2) →
      t2.ops = t.ops
        ++ TOp.absorb (TMsg.info info.num_variables info.max_multiplicands)
          :: msgsTrace (proof.take info.num_variables)) := by
  obtain ⟨c, hv', hpf, hps, ht1⟩ := prove_some_elim chal t p pf ps t1 hp
  obtain ⟨ihLen, ihOps, _, _, _, _, _, cs, ihCsLen, ihRand, ihChal, _, _⟩ :=
    prove_loop_spec chal p.num_variables (prover_init p) none
      (t.append_message (TMsg.info p.num_variables p.max_multiplicands))
      (prove_loop chal p.num_variables (prover_init p) none []
        (t.append_message (TMsg.info p.num_variables p.max_multiplicands))).1
      (prove_loop chal p.num_variables (prover_init p) none []
        (t.append_message (TMsg.info p.num_variables p.max_multiplicands))).2.1
      (prove_loop chal p.num_variables (prover_init p) none []
        (t.append_message (TMsg.info p.num_variables p.max_multiplicands))).2.2.1
      (prove_loop chal p.num_variables (prover_init p) none []
        (t.append_message (TMsg.info p.num_variables p.max_multiplicands))).2.2.2
      (verifier_init p.info) rfl
  rw [← hpf] at ihLen ihOps ihChal
  rw [hv'] at ihRand
  have hpsr : ps.randomness = cs := by
    rw [hps]
    show (prove_loop chal p.num_variables (prover_init p) none []
        (t.append_message (TMsg.info p.num_variables p.max_multiplicands))).1.randomness
      ++ [c] = cs
    exact ihRand
  refine ⟨?_, ?_, ?_⟩
  · rw [ht1, ihOps]
    simp [Transcript.append_message, List.append_assoc]
  · intro i hi
    have hi' : i < p.num_variables := ihLen ▸ hi
    rw [hpsr, ihChal i hi']
    congr 1
    simp [Transcript.append_message, List.append_assoc]
  · intro info claimed proof res t2 hv
    obtain ⟨vs', hvl, _⟩ := verify_some_elim chal t info claimed proof res t2 hv
    obtain ⟨hk, hops, _⟩ := verify_loop_trace chal info.num_variables proof _ _ vs' t2 hvl
    rw [hops]
    simp [Transcript.append_message, List.append_assoc]

/-- C2 (amended).  For every proof with fewer than `num_variables` round
messages, `verify` hits `proof.get(i).expect("proof is incomplete")` and
aborts (modelled as `none`): it returns no result at all - in particular
never a partial subclaim, but also not a recoverable `MalformedProof`
error value. -/
theorem verify_truncated_panics (chal : List (TOp F) → F) (t : Transcript F)
    (info : PolynomialInfo) (claimed : F) (proof : Proof F)
    (hshort : proof.length < info.num_variables) :
    verify chal t info claimed proof = none := by
  have hve : verify chal t info claimed proof
      = (match verify_loop chal info.num_variables proof (verifier_init info)
          (t.append_message (TMsg.info info.num_variables info.max_multiplicands)) with
        | none => none
        | some vt => some (check_and_generate_subclaim vt.1 claimed, vt.2)) := rfl
  rw [hve, verify_loop_short chal info.num_variables proof _ _ hshort]

/-- C3 (amended).  All boundary-consistency checks are deferred to
`check_and_generate_subclaim`, which receives `claimed_sum` and runs only
after the round loop has sampled every round's challenge: whenever
`verify` completes, the transcript records exactly `num_variables`
squeezes, regardless of any check's outcome; within the deferred replay,
a round whose boundary check fails aborts the remaining checks (no later
round's check is evaluated) and the result is `VerificationFailed`, never
a subclaim. -/
theorem deferred_checks (chal : List (TOp F) → F) (t : Transcript F)
    (info : PolynomialInfo) (claimed : F) (proof : Proof F)
    (res : Except Error (SubClaim F)) (t2 : Transcript F)
    (hv : verify chal t info claimed proof = some (res, t2)) :
    squeezeCount t2.ops = squeezeCount t.ops + info.num_variables ∧
    (∀ (d : Nat) (m : List F) (ms : List (List F)) (r : F) (rs : List F) (e : F),
      m.length = d + 1 → m.getD 0 0 + m.getD 1 0 ≠ e →
      check_rounds d (m :: ms) (r :: rs) e
        = Except.error Error.VerificationFailed) := by
  constructor
  · obtain ⟨vs', hvl, _⟩ := verify_some_elim chal t info claimed proof res t2 hv
    obtain ⟨hk, hops, _⟩ := verify_loop_trace chal info.num_variables proof _ _ vs' t2 hvl
    rw [hops]
    have h1 : (t.append_message
        (TMsg.info info.num_variables info.max_multiplicands)).ops
        = t.ops ++ [TOp.absorb (TMsg.info info.num_variables
            info.max_multiplicands)] := rfl
    rw [h1, squeezeCount_append, squeezeCount_append, squeezeCount_msgsTrace]
    have h2 : squeezeCount ([TOp.absorb (TMsg.info info.num_variables
        info.max_multiplicands)] : List (TOp F)) = 0 := rfl
    rw [h2, List.length_take]
    omega
  · intro d m ms r rs e hlen hne
    show (if m.length ≠ d + 1 then Except.error Error.MalformedProof
      else if m.getD 0 0 + m.getD 1 0 ≠ e then Except.error Error.VerificationFailed
      else check_rounds d ms rs (interpolate_uni_poly m r)) = _
    rw [if_neg (fun hcon => hcon hlen), if_pos hne]

end Protocol

/-! Concrete witnesses.  `GF2` is the two-element field with all
operations, the inverse included, given by explicit tables, so that every
protocol run below evaluates inside the kernel. -/

/-- The field with two elements. -/
inductive GF2 where
  | O
  | I
deriving DecidableEq, Fintype

namespace GF2

/-- Addition (exclusive or). -/
def add : GF2 → GF2 → GF2
  | O, x => x
  | I, O => I
  | I, I => O

/-- Multiplication (conjunction). -/
def mul : GF2 → GF2 → GF2
  | O, _ => O
  | I, x => x

instance : Zero GF2 := ⟨O⟩

instance : One GF2 := ⟨I⟩

instance : Add GF2 := ⟨add⟩

instance : Mul GF2 := ⟨mul⟩

instance : Neg GF2 := ⟨fun x => x⟩

instance : Inv GF2 := ⟨fun x => x⟩

instance : CommRing GF2 where
  add_assoc := by decide
  zero_add := by decide
  add_zero := by decide
  add_comm := by decide
  mul_assoc := by decide
  one_mul := by decide
  mul_one := by decide
  left_distrib := by decide
  right_distrib := by decide
  mul_comm := by decide
  zero_mul := by decide
  mul_zero := by decide
  neg_add_cancel := by decide
  nsmul := nsmulRec
  zsmul := zsmulRec

instance : Field GF2 where
  exists_pair_ne := ⟨O, I, by decide⟩
  mul_inv_cancel := by decide
  inv_zero := by decide
  nnqsmul := _
  qsmul := _

end GF2

instance wf_dec {F : Type} [Field F] [DecidableEq F]
    (p : ListOfProductsOfPolynomials F) : Decidable (Wf p) := by
  unfold Wf
  infer_instance

instance nodesInj_dec {F : Type} [Field F] [DecidableEq F] (d : Nat) :
    Decidable (NodesInj F d) := by
  unfold NodesInj
  infer_instance

instance exceptDecidableEq {E A : Type} [DecidableEq E] [DecidableEq A] :
    DecidableEq (Except E A) := fun x y =>
  match x, y with
  | Except.ok a, Except.ok b => decidable_of_iff (a = b) (by simp)
  | Except.error e, Except.error f => decidable_of_iff (e = f) (by simp)
  | Except.ok _, Except.error _ => isFalse (fun h => Except.noConfusion h)
  | Except.error _, Except.ok _ => isFalse (fun h => Except.noConfusion h)

/-- A concrete deterministic sponge for the witness runs. -/
def chalW : List (TOp GF2) → GF2 := fun ops =>
  if ops.length % 2 = 0 then GF2.O else GF2.I

/-- A fresh transcript. -/
def tW : Transcript GF2 := ⟨[]⟩

/-- Valid one-variable polynomial: the multilinear extension with table
`[1, 0]`; its hypercube sum is `1`. -/
def pW : ListOfProductsOfPolynomials GF2 := ⟨1, 1, [(1, [0])], [[GF2.I, GF2.O]]⟩

/-- Degenerate polynomial with zero variables (for the `prove` panic). -/
def pW0 : ListOfProductsOfPolynomials GF2 := ⟨0, 1, [(1, [0])], [[GF2.I]]⟩

/-- Valid two-variable polynomial with table `[1, 0, 0, 0]`; its
hypercube sum is `1`. -/
def pW2 : ListOfProductsOfPolynomials GF2 :=
  ⟨2, 1, [(1, [0])], [[GF2.I, GF2.O, GF2.O, GF2.O]]⟩

/-- The proof produced by the witness `prove` run on `pW`. -/
def pfW : Proof GF2 := ((prove chalW tW pW).map (fun r => r.1)).getD []

/-- The prover state produced by the witness `prove` run on `pW`. -/
def psW : ProverState GF2 :=
  ((prove chalW tW pW).map (fun r => r.2.1)).getD ⟨[], [], [], 0, 0, 0⟩

/-- The transcript after the witness `prove` run on `pW`. -/
def t1W : Transcript GF2 := ((prove chalW tW pW).map (fun r => r.2.2)).getD ⟨[]⟩

/-- The result of the honest witness `verify` run on `pW`. -/
def vResW : Except Error (SubClaim GF2) × Transcript GF2 :=
  (verify chalW tW pW.info (hypercubeSum pW) pfW).getD
    (Except.error Error.MalformedProof, ⟨[]⟩)

/-- The subclaim returned by the honest witness `verify` run on `pW`. -/
def scW : SubClaim GF2 :=
  match vResW.1 with
  | Except.ok sc => sc
  | Except.error _ => ⟨[], 0⟩

/-- The transcript after the honest witness `verify` run on `pW`. -/
def t2W : Transcript GF2 := vResW.2

/-- The proof produced by the witness `prove` run on `pW2`. -/
def pfW2 : Proof GF2 := ((prove chalW tW pW2).map (fun r => r.1)).getD []

/-- The result of the witness `verify` run on `pW2` with the wrong
claimed sum (true sum plus one). -/
def vResW2 : Except Error (SubClaim GF2) × Transcript GF2 :=
  (verify chalW tW pW2.info (hypercubeSum pW2 + 1) pfW2).getD
    (Except.error Error.MalformedProof, ⟨[]⟩)

/-- Witness for C1 at the concrete instance `pW`. -/
theorem sumcheck_completeness_witness :
    ∃ (sc : SubClaim GF2) (t2 : Transcript GF2),
      verify chalW tW pW.info (hypercubeSum pW) pfW = some (Except.ok sc, t2) :=
  sumcheck_completeness chalW tW pW (by decide) (by decide) pfW psW t1W (by decide)

/-- Witness for C4 at the concrete instance `pW`. -/
theorem subclaim_correctness_witness :
    scW.point = psW.randomness ∧
      scW.expected_evaluation = pW.evaluate psW.randomness :=
  subclaim_correctness chalW tW pW (by decide) (by decide) pfW psW t1W (by decide)
    (hypercubeSum pW) scW t2W (by decide)

/-- Witness for C5 at the concrete instance `pW`. -/
theorem extract_sum_roundtrip_witness : extract_sum pfW = hypercubeSum pW :=
  extract_sum_roundtrip chalW tW pW (by decide) pfW psW t1W (by decide)

/-- Witness for C6 at a concrete proof. -/
theorem extract_sum_boundary_witness :
    extract_sum [(⟨[GF2.I, GF2.O]⟩ : ProverMsg GF2)] = GF2.I + GF2.O :=
  extract_sum_boundary [⟨[GF2.I, GF2.O]⟩] ⟨[GF2.I, GF2.O]⟩ GF2.I GF2.O rfl rfl rfl

/-- Witness for C7 at the concrete instance `pW`. -/
theorem transcript_ordering_witness :
    t1W.ops = tW.ops ++ TOp.absorb (TMsg.info pW.num_variables pW.max_multiplicands)
      :: msgsTrace pfW ∧
    psW.randomness.getD 0 0
      = chalW (tW.ops ++ TOp.absorb (TMsg.info pW.num_variables pW.max_multiplicands)
          :: (msgsTrace (pfW.take 0)
            ++ [TOp.absorb (TMsg.pmsg ((pfW.getD 0 ⟨[]⟩).evaluations))])) ∧
    t2W.ops = tW.ops
      ++ TOp.absorb (TMsg.info pW.info.num_variables pW.info.max_multiplicands)
        :: msgsTrace (pfW.take pW.info.num_variables) := by
  have h := transcript_ordering chalW tW pW pfW psW t1W (by decide)
  exact ⟨h.1, h.2.1 0 (by decide),
    h.2.2 pW.info (hypercubeSum pW) pfW (Except.ok scW) t2W (by decide)⟩

/-- Witness for C8 at the concrete instance `pW`. -/
theorem proof_length_round_order_witness :
    pfW.length = pW.num_variables ∧
    t1W.ops = tW.ops ++ TOp.absorb (TMsg.info pW.num_variables pW.max_multiplicands)
      :: msgsTrace pfW :=
  proof_length_round_order chalW tW pW pfW psW t1W (by decide)

/-- Witness for C10: a zero-variable polynomial panics, a one-variable
polynomial succeeds. -/
theorem prove_totality_witness :
    prove chalW tW pW0 = none ∧
    (∃ (pf : Proof GF2) (ps : ProverState GF2) (t1 : Transcript GF2),
      prove chalW tW pW = some (pf, ps, t1)) :=
  ⟨(prove_totality chalW tW pW0).1 rfl, (prove_totality chalW tW pW).2 (by decide)⟩

/-- Counterexample for C2 as stated: on a proof with fewer messages than
`num_variables` (here the empty proof against a one-variable shape),
`verify` does not return a `MalformedProof` error value - it panics at
`proof.get(i).expect("proof is incomplete")`, modelled as `none`. -/
theorem verify_truncated_cex :
    verify chalW tW (⟨1, 1⟩ : PolynomialInfo) 0 ([] : Proof GF2) = none := by decide

/-- Witness for the amended C2 at a concrete truncated proof. -/
theorem verify_truncated_panics_witness :
    verify chalW tW (⟨2, 1⟩ : PolynomialInfo) 0
      [(⟨[GF2.I, GF2.O]⟩ : ProverMsg GF2)] = none :=
  verify_truncated_panics chalW tW ⟨2, 1⟩ 0 [⟨[GF2.I, GF2.O]⟩] (by decide)

/-- Counterexample for C3 as stated: an honest two-round proof for `pW2`
verified against a wrong claimed sum fails the very first round's
boundary check (which, on this code, can only be evaluated inside
`check_and_generate_subclaim`, since `claimed_sum` reaches the verifier
engine only there), yet the transcript of the completed run holds two
squeezes: the challenge of the failing round and of the round after it
were both sampled, so the check is not performed before sampling and a
failing round does not abort the remaining rounds. -/
theorem deferred_checks_cex :
    verify chalW tW pW2.info (hypercubeSum pW2 + 1) pfW2
      = some (Except.error Error.VerificationFailed, vResW2.2) ∧
    squeezeCount vResW2.2.ops = 2 ∧ pW2.info.num_variables = 2 := by decide

/-- Witness for the amended C3 at the concrete instance `pW2`. -/
theorem deferred_checks_witness :
    squeezeCount vResW2.2.ops = squeezeCount tW.ops + pW2.info.num_variables ∧
    check_rounds 1 [[GF2.I, GF2.O]] [GF2.O] GF2.O
      = Except.error Error.VerificationFailed := by
  have h := deferred_checks chalW tW pW2.info (hypercubeSum pW2 + 1) pfW2
    (Except.error Error.VerificationFailed) vResW2.2 (by decide)
  exact ⟨h.1, h.2 1 [GF2.I, GF2.O] [] GF2.O [] GF2.O (by decide) (by decide)⟩

end Primus
